import Mathlib

/-!
Verification of the treetools tree-continuization pipeline and PMCFG
extraction (`src/trees/transform.py`, `src/trees/grammar.py`).

The tree-model primitives (`trees.py`: node structure, `children`,
`terminals`, `preorder`/`postorder`, `right_sibling`, `lca`,
`terminal_blocks`, `dominance`) are not part of the provided sources, so
they are modelled from the specification (spec §3, §4.1): a node has a
`label`, an `edge`, an integer terminal index `num` (meaningful on
leaves), mutable annotation fields `head`, `split`, `head_block`,
`block_number` (absent until a pass sets them, hence `Option`), and an
ordered children sequence.  `terminals(t)` is the list of leaf
descendants sorted by ascending `num`.

The four transformation passes and the grammar extractor/serializer are
translated from the Python source.  Python's in-place mutation is turned
into pure recursion; `dict` lookups of possibly-missing annotation keys
become `Option` reads, and code paths where Python raises are modelled
with `Except`.  Terminal indices are `Nat`; the sources assume 1-based
indices (spec §3: nums of a tree are exactly 1..k), and the only place
this matters is `root_attach`'s `min - 1`, which is Nat-truncated
subtraction here (the guard `t_l < tree_min` behaves identically for all
1-based trees).
-/

namespace Treetools

/-- The data dict of a node (the keys used by the passes under
verification).  `head`, `split`, `head_block`, `block_number` are `none`
when the corresponding key is absent from the Python data dict. -/
structure NodeData where
  label : String
  edge : String
  num : Nat
  head : Option Bool
  split : Option Bool
  head_block : Option Bool
  block_number : Option Nat
deriving DecidableEq, Repr

/-- A tree node: data plus the ordered children sequence (spec §3). -/
inductive Tree where
  | node : NodeData → List Tree → Tree

/-- Node data of the root of `t`. -/
def dataOf : Tree → NodeData
  | .node d _ => d

/-- The ordered children sequence of the root of `t` (spec §3). -/
def childrenOf : Tree → List Tree
  | .node _ cs => cs

def labelOf (t : Tree) : String := (dataOf t).label

def edgeOf (t : Tree) : String := (dataOf t).edge

def numOf (t : Tree) : Nat := (dataOf t).num

def headOf (t : Tree) : Option Bool := (dataOf t).head

def splitOf (t : Tree) : Option Bool := (dataOf t).split

def hbOf (t : Tree) : Option Bool := (dataOf t).head_block

/-- `num` values of the leaf descendants of `t`, in left-to-right stored
order.  A node with no children is itself a terminal (spec §4.1). -/
def leafNums : Tree → List Nat
  | .node d [] => [d.num]
  | .node _ (c :: cs) => leafNums c ++ leafNumsL cs
where
  leafNumsL : List Tree → List Nat
  | [] => []
  | c :: cs => leafNums c ++ leafNumsL cs

/-- `num` of the leftmost terminal of `t`: `terminals(t)[0].data['num']`
in the Python source (terminals are sorted by `num`, so this is the
minimum). -/
def minNum (t : Tree) : Nat :=
  match leafNums t with
  | [] => 0
  | n :: ns => ns.foldl Nat.min n

/-- `num` of the rightmost terminal of `t`:
`terminals(t)[-1].data['num']` (the maximum). -/
def maxNum (t : Tree) : Nat :=
  match leafNums t with
  | [] => 0
  | n :: ns => ns.foldl Nat.max n

/-- `num` values of `terminals(t)`: the leaf nums sorted ascending
(spec §4.1: terminals are ordered by ascending `num`). -/
def termNums (t : Tree) : List Nat :=
  List.insertionSort (· ≤ ·) (leafNums t)

/-- All nodes of `t` (t itself and every descendant), preorder. -/
def nodes : Tree → List Tree
  | .node d cs => .node d cs :: nodesL cs
where
  nodesL : List Tree → List Tree
  | [] => []
  | c :: cs => nodes c ++ nodesL cs

/-- Structural induction for `Tree` with list children. -/
def treeInd {P : Tree → Prop}
    (h : ∀ d cs, (∀ c, c ∈ cs → P c) → P (.node d cs)) : ∀ t, P t
  | .node d cs => h d cs (fun c hc => treeInd h c)
termination_by t => sizeOf t
decreasing_by
  simp only [Tree.node.sizeOf_spec]
  have := List.sizeOf_lt_of_mem hc
  omega

/-- The terminal-order invariant (spec §3, §8): the terminals of `t`
read by ascending `num` are exactly `1..k`. -/
def valid (t : Tree) (k : Nat) : Prop :=
  termNums t = List.range' 1 k

instance (t : Tree) (k : Nat) : Decidable (valid t k) := by
  unfold valid; infer_instance

/-! ### Head marking (`negra_mark_heads`, transform.py lines 80-108) -/

/-- Index of the child to mark as head, from the children's edge labels:
leftmost `HD` if present, else rightmost `NK`, else leftmost
(transform.py lines 96-103). -/
def markIndex (edges : List String) : Nat :=
  if edges.contains "HD" then edges.findIdx (· == "HD")
  else if edges.contains "NK" then
    (edges.length - 1) - edges.reverse.findIdx (· == "NK")
  else 0

/-- Preorder head marking: each node receives the `head` value `b`
decided by its parent (the root receives `False`, line 91), and marks
exactly the child at `markIndex` among its own children
(lines 104-107). -/
def markRec (b : Bool) : Tree → Tree
  | .node d cs =>
    .node { d with head := some b } (markList (markIndex (cs.map edgeOf)) 0 cs)
where
  markList (idx : Nat) : Nat → List Tree → List Tree
  | _, [] => []
  | pos, c :: cs => markRec (pos == idx) c :: markList idx (pos + 1) cs

/-- `negra_mark_heads` (transform.py lines 80-108). -/
def negra_mark_heads (t : Tree) : Tree := markRec false t

/-! ### Boyd block splitting (`boyd_split`, transform.py lines 111-175) -/

/-- The per-child head-block test of transform.py lines 168-170:
`child.data['head'] and ((not child.data['split']) or
child.data['head_block'])`.  Children reaching this test have been
processed in postorder, so their `split`/`head_block` keys are set. -/
def coversHead (c : Tree) : Bool :=
  (headOf c == some true) && ((splitOf c != some true) || (hbOf c == some true))

/-- Group a children list into maximal blocks with contiguous combined
terminal yield (transform.py lines 134-142): a new block starts when the
next child's first terminal num exceeds the last terminal num of the
most recently added child by more than one.  `curRev` is the current
block, reversed (head = last added child). -/
def blocksGo : List Tree → List Tree → List (List Tree)
  | curRev, [] => [curRev.reverse]
  | curRev, c :: rest =>
    match curRev with
    | [] => blocksGo [c] rest
    | lastAdded :: _ =>
      if maxNum lastAdded + 1 < minNum c then
        curRev.reverse :: blocksGo [c] rest
      else blocksGo (c :: curRev) rest

/-- The block list of a children sequence (empty for a childless node,
as in transform.py line 134). -/
def blocksOf : List Tree → List (List Tree)
  | [] => []
  | c :: rest => blocksGo [c] rest

/-- Create one split node per block (transform.py lines 151-174): each
copies the original node's data (with the just-set defaults), then sets
`split=True`, `head` to the original node's head flag, `head_block` by
the `coversHead` test over the block, and the 1-based block number.  The
block's children are moved below the new node. -/
def mkPieces (d : NodeData) (hd : Bool) : Nat → List (List Tree) → List Tree
  | _, [] => []
  | i, b :: bs =>
    Tree.node
      { d with
          split := some true
          head := some hd
          head_block := some (b.any coversHead)
          block_number := some i } b :: mkPieces d hd (i + 1) bs

/-- Final children sequence of a node after its children were processed
in postorder: a child replaced by a single node stays in place, while
the split groups of multi-block children are appended at the end of the
parent's children list in processing order (transform.py lines 148,
160: `parent.children.remove(subtree)` … `parent.children.append`). -/
def combine (rs : List (List Tree)) : List Tree :=
  (rs.filter fun r => r.length == 1).flatten ++
    (rs.filter fun r => r.length != 1).flatten

/-- Postorder Boyd splitting of one subtree.  Returns the list of nodes
replacing the subtree at its parent: `[t']` if the subtree's yield is
contiguous (defaults `split=False`, `head_block=True` set, line
130-131), or the split nodes if it has several blocks.  Splitting a
node whose data has no `head` key raises `ValueError("heads not
marked?")` (line 156), modelled as `Except.error`. -/
def boydRec : Tree → Except String (List Tree)
  | .node d cs =>
    match boydList cs with
    | .error e => .error e
    | .ok rs =>
      let d2 : NodeData := { d with split := some false, head_block := some true }
      let newCs := combine rs
      let bs := blocksOf newCs
      if bs.length ≤ 1 then .ok [.node d2 newCs]
      else
        match d.head with
        | none => .error "heads not marked?"
        | some hd => .ok (mkPieces d2 hd 1 bs)
where
  boydList : List Tree → Except String (List (List Tree))
  | [] => .ok []
  | c :: cs =>
    match boydRec c with
    | .error e => .error e
    | .ok r =>
      match boydList cs with
      | .error e => .error e
      | .ok rs => .ok (r :: rs)

/-- `boyd_split` (transform.py lines 111-175).  If the root itself has
more than one block, the Python code dereferences the root's `None`
parent (line 148) and crashes with an `AttributeError`; this is
modelled as an error result. -/
def boyd_split (t : Tree) : Except String Tree :=
  match boydRec t with
  | .error e => .error e
  | .ok [x] => .ok x
  | .ok _ => .error "AttributeError"

/-! ### Crossing-branch raising (`raising`, transform.py lines 178-202) -/

/-- A node is removed by raising iff it was introduced by splitting and
is not a head block (transform.py lines 191-193). -/
def removedB (c : Tree) : Bool :=
  (splitOf c == some true) && (hbOf c == some false)

/-- Children list after the removal worklist has been applied at one
node: surviving children keep their relative order, and each removed
child's (already spliced) children are appended at the end, in the
removed children's order (transform.py lines 198-201:
`parent.children.append(child)`). -/
def raiseSplice (cs : List Tree) : List Tree :=
  (cs.filter fun c => !removedB c) ++
    ((cs.filter removedB).map childrenOf).flatten

/-- Recursive form of `raising`'s preorder worklist: children are
spliced bottom-up; the root is never removed (transform.py line 190). -/
def raiseRec : Tree → Tree
  | .node d cs => .node d (raiseSplice (raiseList cs))
where
  raiseList : List Tree → List Tree
  | [] => []
  | c :: cs => raiseRec c :: raiseList cs

/-- `raising` (transform.py lines 178-202). -/
def raising (t : Tree) : Tree := raiseRec t

/-! ### Root attachment (`root_attach`, transform.py lines 18-77) -/

/-- The right-boundary extension loop (transform.py lines 47-67):
scanning the remaining right siblings, skip a sibling that starts left
of the focus node's end, stop at the first gap, and otherwise absorb
the sibling (advancing the right boundary to its last terminal + 1). -/
def extendR : Nat → Nat → List Tree → Nat
  | _, tr, [] => tr
  | focusMax, tr, s :: rest =>
    if minNum s < focusMax then extendR focusMax tr rest
    else if focusMax + 1 < minNum s then tr
    else extendR (maxNum s) (maxNum s + 1) rest

/-- Path (list of child indices) from the root of `t` to its first leaf
with `num = n`. -/
def pathToLeaf : Tree → Nat → Option (List Nat)
  | .node d [], n => if d.num = n then some [] else none
  | .node _ (c :: cs), n => pathL 0 (c :: cs) n
where
  pathL (i : Nat) : List Tree → Nat → Option (List Nat)
  | [], _ => none
  | c :: cs, n =>
    match pathToLeaf c n with
    | some p => some (i :: p)
    | none => pathL (i + 1) cs n

/-- Longest common path of two child-index paths. -/
def lcp : List Nat → List Nat → List Nat
  | a :: as, b :: bs => if a = b then a :: lcp as bs else []
  | _, _ => []

/-- `lca` of the terminals numbered `a` and `b` (spec §4.1: the first
common node of the two dominance paths, i.e. the deepest common
ancestor), as the path from the root to that node. -/
def lcaPath (t : Tree) (a b : Nat) : Option (List Nat) :=
  match pathToLeaf t a, pathToLeaf t b with
  | some p, some q => some (lcp p q)
  | _, _ => none

/-- Subtree of `t` at a child-index path. -/
def nodeAt : Tree → List Nat → Option Tree
  | t, [] => some t
  | .node _ cs, i :: p =>
    match cs[i]? with
    | some c => nodeAt c p
    | none => none

/-- Append `c` as the last child of the node at path `p` (transform.py
line 75: `target.children.append(child)`). -/
def insertAt : Tree → List Nat → Tree → Option Tree
  | .node d cs, [], c => some (.node d (cs ++ [c]))
  | .node d cs, i :: p, c =>
    match cs[i]? with
    | some s =>
      match insertAt s p c with
      | some s2 => some (.node d (cs.set i s2))
      | none => none
    | none => none

/-- One pass over the root's children, left to right (transform.py lines
39-76).  `i` is the index of the next unprocessed child in the current
children list of the root; `fuel` counts the children still to process
(the Python loop iterates over a snapshot of the original children, and
a move never lets an already processed child re-enter the unprocessed
region).  A child is skipped when its attachment group extends to a
sentence boundary (line 69); otherwise it is detached and appended
under the lca of its boundary-neighbour terminals.  Where the Python
code would crash (lca of terminals that do not exist), the model leaves
the tree unchanged for that child; this is unreachable for 1-based
gapless trees. -/
def goRA (tmin tmax : Nat) : Nat → Nat → Tree → Tree
  | 0, _, t => t
  | fuel + 1, i, .node d cs =>
    match cs[i]? with
    | none => .node d cs
    | some c =>
      let tl := minNum c - 1
      let tr := extendR (maxNum c) (maxNum c + 1) (cs.drop (i + 1))
      if tl < tmin ∨ tmax < tr then goRA tmin tmax fuel (i + 1) (.node d cs)
      else
        let t2 := Tree.node d (cs.eraseIdx i)
        match lcaPath t2 tl tr with
        | none => goRA tmin tmax fuel (i + 1) (.node d cs)
        | some p =>
          match insertAt t2 p c with
          | none => goRA tmin tmax fuel (i + 1) (.node d cs)
          | some t3 => goRA tmin tmax fuel i t3

/-- `root_attach` (transform.py lines 18-77). -/
def root_attach (t : Tree) : Tree :=
  goRA (minNum t) (maxNum t) (childrenOf t).length 0 t

/-! ### Grammar extraction (`extract`, grammar.py lines 52-98) -/

/-- One argument block of a linearization: a sequence of
`(rhs index, rhs argument position)` pairs. -/
abbrev LinBlock := List (Nat × Nat)

/-- A linearization: one block per contiguous terminal block. -/
abbrev Lin := List LinBlock

/-- A bare production: lhs label followed by the rhs labels. -/
abbrev Func := List String

/-- A vertical context: labels from the extraction node up to the root. -/
abbrev Vert := List String

/-- The grammar accumulator: `func -> lin -> vert -> count`, each level
an insertion-ordered association list (Python dicts preserve insertion
order, which the PMCFG serializer then iterates). -/
abbrev Grammar := List (Func × List (Lin × List (Vert × Nat)))

/-- Split a sorted num list into maximal runs of consecutive nums
(spec §4.1, `terminal_blocks`).  `curRev` is the current run reversed,
`last` the num most recently added. -/
def runsGo (last : Nat) (curRev : List Nat) : List Nat → List (List Nat)
  | [] => [curRev.reverse]
  | n :: rest =>
    if n = last + 1 then runsGo n (n :: curRev) rest
    else curRev.reverse :: runsGo n [n] rest

/-- `terminal_blocks` on the level of terminal nums. -/
def runsOf : List Nat → List (List Nat)
  | [] => []
  | n :: rest => runsGo n [n] rest

/-- `term_map` (grammar.py lines 62-67): index of the rhs child covering
terminal `n`; built left to right with later children overwriting, like
the Python dict assignment. -/
def coverGo (acc i : Nat) (n : Nat) : List Tree → Nat
  | [] => acc
  | c :: cs => coverGo (if n ∈ leafNums c then i else acc) (i + 1) n cs

def coverOf (cs : List Tree) (n : Nat) : Nat := coverGo 0 0 n cs

/-- Build one linearization block (grammar.py lines 75-87): walk the
terminals of one contiguous block; append a `(rhs index, argument
position)` pair whenever the covering rhs index differs from the last
appended one, incrementing that rhs index's running argument counter.
Returns the block and the updated counters. -/
def buildBlock (cover : Nat → Nat) :
    List Nat → List (Nat × Nat) → List Nat → List (Nat × Nat) × List Nat
  | argpos, curRev, [] => (curRev.reverse, argpos)
  | argpos, curRev, n :: rest =>
    let r := cover n
    match curRev with
    | (p, _) :: _ =>
      if p = r then buildBlock cover argpos curRev rest
      else
        buildBlock cover (argpos.set r (argpos.getD r 0 + 1))
          ((r, argpos.getD r 0) :: curRev) rest
    | [] =>
      buildBlock cover (argpos.set r (argpos.getD r 0 + 1))
        ((r, argpos.getD r 0) :: curRev) rest

/-- Build the linearization, one block per terminal run, threading the
per-rhs argument counters across blocks (grammar.py lines 70-88). -/
def buildLin (cover : Nat → Nat) : List Nat → List (List Nat) → Lin
  | _, [] => []
  | argpos, run :: rest =>
    let res := buildBlock cover argpos [] run
    res.1 :: buildLin cover res.2 rest

/-- `grammar[func][lin][vert] += 1` with defaulting (grammar.py lines
91-97), on insertion-ordered association lists. -/
def bumpV (v : Vert) : List (Vert × Nat) → List (Vert × Nat)
  | [] => [(v, 1)]
  | (v2, n) :: rest =>
    if v2 = v then (v2, n + 1) :: rest else (v2, n) :: bumpV v rest

def bumpL (l : Lin) (v : Vert) :
    List (Lin × List (Vert × Nat)) → List (Lin × List (Vert × Nat))
  | [] => [(l, [(v, 1)])]
  | (l2, vs) :: rest =>
    if l2 = l then (l2, bumpV v vs) :: rest else (l2, vs) :: bumpL l v rest

def bump (f : Func) (l : Lin) (v : Vert) : Grammar → Grammar
  | [] => [(f, [(l, [(v, 1)])])]
  | (f2, ls) :: rest =>
    if f2 = f then (f2, bumpL l v ls) :: rest else (f2, ls) :: bump f l v rest

/-- Preorder extraction (grammar.py lines 58-97): every node with
children contributes one `(func, lin, vert)` count, where `vert` is the
label path from the node to the root (spec §4.1 `dominance`). -/
def extractRec (anc : List String) (g : Grammar) : Tree → Grammar
  | .node d cs =>
    let g1 :=
      match cs with
      | [] => g
      | _ =>
        let func := d.label :: cs.map labelOf
        let lin := buildLin (coverOf cs) (List.replicate cs.length 0)
          (runsOf (termNums (.node d cs)))
        bump func lin (d.label :: anc) g
    extractList (d.label :: anc) g1 cs
where
  extractList (anc : List String) (g : Grammar) : List Tree → Grammar
  | [] => g
  | c :: cs => extractList anc (extractRec anc g c) cs

/-- `extract` (grammar.py lines 52-98). -/
def extract (t : Tree) (g : Grammar) : Grammar := extractRec [] g t

/-! ### PMCFG serialization (`pmcfg`, grammar.py lines 23-49) -/

/-- One emitted rule record: the `fun<N>` lines for one
(function, linearization) pair (grammar.py lines 34-45). -/
structure PRecord where
  funId : Nat
  lhs : String
  rhs : List String
  linIds : List Nat
  count : Nat
deriving DecidableEq, Repr

/-- `lindef_to_id` lookup. -/
def lookupLinDef (ld : LinBlock) : List (LinBlock × Nat) → Option Nat
  | [] => none
  | (ld2, j) :: rest => if ld2 = ld then some j else lookupLinDef ld rest

/-- Assign ids to the blocks of one linearization (grammar.py lines
38-43): a block not seen before gets the next sequential id.  Returns
the id list, the extended table and the next free id. -/
def assignLins (tbl : List (LinBlock × Nat)) (next : Nat) :
    Lin → List Nat × List (LinBlock × Nat) × Nat
  | [] => ([], tbl, next)
  | ld :: rest =>
    match lookupLinDef ld tbl with
    | some j =>
      let r := assignLins tbl next rest
      (j :: r.1, r.2)
    | none =>
      let r := assignLins (tbl ++ [(ld, next)]) (next + 1) rest
      (next :: r.1, r.2)

/-- Emit the records of one function's linearization map.  `fid` is the
running record id: the Python code increments `func_id` once per
(function, linearization) pair (grammar.py line 46, inside the `lin`
loop).  Returns the records, the lindef table, the next lindef id and
the next record id. -/
def pmcfgLins (f : Func) :
    Nat → List (LinBlock × Nat) → Nat → List (Lin × List (Vert × Nat)) →
    List PRecord × List (LinBlock × Nat) × Nat × Nat
  | fid, tbl, next, [] => ([], tbl, next, fid)
  | fid, tbl, next, (lin, vs) :: rest =>
    let a := assignLins tbl next lin
    let r := pmcfgLins f (fid + 1) a.2.1 a.2.2 rest
    ({ funId := fid
       lhs := f.headD ""
       rhs := f.tail
       linIds := a.1
       count := (vs.map (fun x => x.2)).sum } :: r.1, r.2)

/-- Iterate the grammar's functions in order (grammar.py line 31). -/
def pmcfgFuncs :
    Nat → List (LinBlock × Nat) → Nat → Grammar →
    List PRecord × List (LinBlock × Nat) × Nat × Nat
  | fid, tbl, next, [] => ([], tbl, next, fid)
  | fid, tbl, next, (f, ls) :: rest =>
    let r1 := pmcfgLins f fid tbl next ls
    let r2 := pmcfgFuncs r1.2.2.2 r1.2.1 r1.2.2.1 rest
    (r1.1 ++ r2.1, r2.2)

/-- `pmcfg` (grammar.py lines 23-49): the emitted rule records together
with the lindef table (which the Python code prints sorted by ascending
id; the table is built in ascending id order). -/
def pmcfg (g : Grammar) : List PRecord × List (LinBlock × Nat) :=
  let r := pmcfgFuncs 1 [] 1 g
  (r.1, r.2.1)

/-! ### Concrete inputs used by witnesses and counterexamples -/

/-- A terminal leaf. -/
def mkLeaf (lbl : String) (n : Nat) (h : Option Bool) : Tree :=
  .node ⟨lbl, "--", n, h, none, none, none⟩ []

/-- An internal node without annotations. -/
def mkNode (lbl : String) (h : Option Bool) (cs : List Tree) : Tree :=
  .node ⟨lbl, "--", 0, h, none, none, none⟩ cs

/-- The spec §8 scenario: flat `S -> NP VP`, `NP` over terminal 1, `VP`
over terminals 2 and 3 (contiguous). -/
def tC1 : Tree :=
  mkNode "S" none
    [mkNode "NP" none [mkLeaf "w1" 1 none],
     mkNode "VP" none [mkLeaf "w2" 2 none, mkLeaf "w3" 3 none]]

/-- A head-marked tree with one discontinuous node: `P` over
`A {1,3}` (head child) and `B {2}`. -/
def tBoyd : Tree :=
  mkNode "P" (some false)
    [mkNode "A" (some true)
       [mkLeaf "t1" 1 (some true), mkLeaf "t3" 3 (some false)],
     mkNode "B" (some false) [mkLeaf "t2" 2 (some true)]]

/-- The same tree with no head marking anywhere. -/
def tUnmarked : Tree :=
  mkNode "P" none
    [mkNode "A" none [mkLeaf "t1" 1 none, mkLeaf "t3" 3 none],
     mkNode "B" none [mkLeaf "t2" 2 none]]

/-- A leaf as it looks after `boyd_split` (defaults set). -/
def mkDoneLeaf (lbl : String) (n : Nat) : Tree :=
  .node ⟨lbl, "--", n, some false, some false, some true, none⟩ []

/-- A post-split tree for `raising`: the first child of the root is a
non-head split node (with two children), followed by a surviving
sibling. -/
def tC5 : Tree :=
  .node ⟨"TOP", "--", 0, some false, some false, some true, none⟩
    [.node ⟨"R", "--", 0, some false, some true, some false, some 1⟩
       [mkDoneLeaf "x" 1, mkDoneLeaf "y" 2],
     mkDoneLeaf "s" 3]

/-- A grammar with one function and two linearizations, for the
serializer. -/
def gC8 : Grammar :=
  [(["S", "A", "B"],
    [([[(0, 0)], [(1, 0)]], [(["S"], 1)]),
     ([[(0, 0), (1, 0)]], [(["S"], 1)])])]

/-- The head-marked pipeline tree: a virtual root above `tBoyd`'s
structure, so that `boyd_split` succeeds. -/
def tPipe : Tree :=
  mkNode "TOP" (some false) [mkNode "P" (some true)
    [mkNode "A" (some true)
       [mkLeaf "t1" 1 (some true), mkLeaf "t3" 3 (some false)],
     mkNode "B" (some false) [mkLeaf "t2" 2 (some true)]]]

/-- A root-attachment input: `B {2}` interrupts `A {1,3}` at the top
level. -/
def tRA : Tree :=
  mkNode "VROOT" none
    [mkNode "A" none [mkLeaf "t1" 1 none, mkLeaf "t3" 3 none],
     mkNode "B" none [mkLeaf "t2" 2 none]]

/-- A tree with `NK`/`HD`/`NK` edges for head marking. -/
def tC6 : Tree :=
  .node ⟨"S", "--", 0, none, none, none, none⟩
    [.node ⟨"c1", "NK", 1, none, none, none, none⟩ [],
     .node ⟨"c2", "HD", 2, none, none, none, none⟩ [],
     .node ⟨"c3", "NK", 3, none, none, none, none⟩ []]

/-! ### Decidable equality and statement-level predicates -/

mutual

/-- Decidable equality for trees (structural). -/
def Tree.decEq : (a b : Tree) → Decidable (a = b)
  | .node d cs, .node e es =>
    if hd : d = e then
      match Tree.decEqList cs es with
      | isTrue h => isTrue (by rw [hd, h])
      | isFalse h => isFalse (by intro he; injection he; contradiction)
    else isFalse (by intro he; injection he; contradiction)

/-- Decidable equality for lists of trees. -/
def Tree.decEqList : (a b : List Tree) → Decidable (a = b)
  | [], [] => isTrue rfl
  | [], _ :: _ => isFalse (fun h => List.noConfusion h)
  | _ :: _, [] => isFalse (fun h => List.noConfusion h)
  | x :: xs, y :: ys =>
    match Tree.decEq x y with
    | isTrue h1 =>
      match Tree.decEqList xs ys with
      | isTrue h2 => isTrue (by rw [h1, h2])
      | isFalse h2 => isFalse (by intro h; injection h; contradiction)
    | isFalse h1 => isFalse (by intro h; injection h; contradiction)

end

instance : DecidableEq Tree := Tree.decEq

/-- Every node carries a `head` annotation and every internal node has
exactly one head-marked child — the postcondition of head marking and
the precondition of Boyd splitting. -/
def HeadMarked (t : Tree) : Prop :=
  ∀ n ∈ nodes t, (headOf n).isSome ∧
    (childrenOf n ≠ [] →
      (childrenOf n).countP (fun c => headOf c == some true) = 1)

instance (t : Tree) : Decidable (HeadMarked t) := by
  unfold HeadMarked; infer_instance

/-- No node of the tree carries a `head` annotation (head marking was
never applied). -/
def unmarked (t : Tree) : Prop := ∀ n ∈ nodes t, headOf n = none

instance (t : Tree) : Decidable (unmarked t) := by
  unfold unmarked; infer_instance

/-- Some node's children group into more than one contiguous block, so
Boyd splitting would have to split it. -/
def discont (t : Tree) : Prop :=
  ∃ n ∈ nodes t, 1 < (blocksOf (childrenOf n)).length

instance (t : Tree) : Decidable (discont t) := by
  unfold discont; infer_instance

/-- No leaf is marked as a removable split node — true of every
`boyd_split` output, and the condition under which `raising` preserves
the terminal yield. -/
def safeForRaise (t : Tree) : Prop :=
  ∀ n ∈ nodes t, childrenOf n = [] → removedB n = false

instance (t : Tree) : Decidable (safeForRaise t) := by
  unfold safeForRaise; infer_instance

/-- The span key a children list's block structure depends on. -/
def mmKey (t : Tree) : Nat × Nat := (minNum t, maxNum t)

/-- The head-marking heuristic on the edge-label sequence (spec §4.3):
`i` is the leftmost `HD` position if any, else the rightmost `NK`
position if any, else 0. -/
def headChoice (es : List String) (i : Nat) : Prop :=
  ("HD" ∈ es ∧ es[i]? = some "HD" ∧ ∀ j < i, es[j]? ≠ some "HD") ∨
  ("HD" ∉ es ∧ "NK" ∈ es ∧ es[i]? = some "NK" ∧
    ∀ j, i < j → es[j]? ≠ some "NK") ∨
  ("HD" ∉ es ∧ "NK" ∉ es ∧ i = 0)

/-- Lookup of a function's linearization map in the grammar. -/
def lookupFunc (f : Func) : Grammar → Option (List (Lin × List (Vert × Nat)))
  | [] => none
  | (f2, ls) :: rest => if f2 = f then some ls else lookupFunc f rest

/-- The linearizations recorded for a function, each with its total
count (summed over vertical contexts, as the serializer does). -/
def linsOfFunc (g : Grammar) (f : Func) : List (Lin × Nat) :=
  ((lookupFunc f g).getD []).map fun x => (x.1, (x.2.map fun y => y.2).sum)

/-- The `A` subtree of `tPipe` (head-marked, discontinuous). -/
def tA : Tree :=
  mkNode "A" (some true)
    [mkLeaf "t1" 1 (some true), mkLeaf "t3" 3 (some false)]

/-- The split nodes `boydRec` produces for `tA`. -/
def tASplit : List Tree :=
  [.node ⟨"A", "--", 0, some true, some true, some true, some 1⟩
     [.node ⟨"t1", "--", 1, some true, some false, some true, none⟩ []],
   .node ⟨"A", "--", 0, some true, some true, some false, some 2⟩
     [.node ⟨"t3", "--", 3, some false, some false, some true, none⟩ []]]

/-- The child replacement lists `boydRec.boydList` produces for
`tPipe`'s children. -/
def rsPipe : List (List Tree) :=
  [[.node ⟨"P", "--", 0, some true, some true, some true, some 1⟩
      [.node ⟨"B", "--", 0, some false, some false, some true, none⟩
         [.node ⟨"t2", "--", 2, some true, some false, some true, none⟩ []],
       .node ⟨"A", "--", 0, some true, some true, some true, some 1⟩
         [.node ⟨"t1", "--", 1, some true, some false, some true, none⟩ []]],
    .node ⟨"P", "--", 0, some true, some true, some false, some 2⟩
      [.node ⟨"A", "--", 0, some true, some true, some false, some 2⟩
         [.node ⟨"t3", "--", 3, some false, some false, some true, none⟩ []]]]]

/-- The result of `boyd_split tPipe`. -/
def tPipeSplit : Tree :=
  .node ⟨"TOP", "--", 0, some false, some false, some true, none⟩
    [.node ⟨"P", "--", 0, some true, some true, some true, some 1⟩
       [.node ⟨"B", "--", 0, some false, some false, some true, none⟩
          [.node ⟨"t2", "--", 2, some true, some false, some true, none⟩ []],
        .node ⟨"A", "--", 0, some true, some true, some true, some 1⟩
          [.node ⟨"t1", "--", 1, some true, some false, some true, none⟩ []]],
     .node ⟨"P", "--", 0, some true, some true, some false, some 2⟩
       [.node ⟨"A", "--", 0, some true, some true, some false, some 2⟩
          [.node ⟨"t3", "--", 3, some false, some false, some true, none⟩ []]]]

/-! ## Basic lemmas about the tree model -/

theorem leafNumsL_eq (cs : List Tree) :
    leafNums.leafNumsL cs = (cs.map leafNums).flatten := by
  induction cs with
  | nil => rfl
  | cons c cs ih => simp [leafNums.leafNumsL, ih]

theorem leafNums_node_of_ne (d : NodeData) (cs : List Tree) (h : cs ≠ []) :
    leafNums (.node d cs) = (cs.map leafNums).flatten := by
  cases cs with
  | nil => exact absurd rfl h
  | cons c cs => simp [leafNums, leafNumsL_eq]

theorem leafNums_ne_nil : ∀ t : Tree, leafNums t ≠ [] := by
  apply treeInd
  intro d cs ih
  cases cs with
  | nil => simp [leafNums]
  | cons c cs =>
    have hc := ih c (by simp)
    cases hln : leafNums c with
    | nil => exact absurd hln hc
    | cons a as => simp [leafNums, hln]

theorem nodesL_eq (cs : List Tree) :
    nodes.nodesL cs = (cs.map nodes).flatten := by
  induction cs with
  | nil => rfl
  | cons c cs ih => simp [nodes.nodesL, ih]

theorem mem_nodes_self (t : Tree) : t ∈ nodes t := by
  cases t with
  | node d cs => simp [nodes]

theorem mem_nodes_trans {n c : Tree} {d : NodeData} {cs : List Tree}
    (hc : c ∈ cs) (hn : n ∈ nodes c) : n ∈ nodes (.node d cs) := by
  simp only [nodes, nodesL_eq, List.mem_cons, List.mem_flatten]
  right
  exact ⟨nodes c, List.mem_map_of_mem _ hc, hn⟩

theorem termNums_eq_of_perm {t1 t2 : Tree}
    (h : (leafNums t1).Perm (leafNums t2)) : termNums t1 = termNums t2 := by
  apply List.eq_of_perm_of_sorted (r := ((· ≤ ·) : Nat → Nat → Prop))
  · exact (List.perm_insertionSort _ _).trans
      (h.trans (List.perm_insertionSort _ _).symm)
  · exact List.sorted_insertionSort _ _
  · exact List.sorted_insertionSort _ _

theorem valid_of_perm {t1 t2 : Tree} {k : Nat}
    (h : (leafNums t2).Perm (leafNums t1)) (hv : valid t1 k) : valid t2 k := by
  unfold valid at hv ⊢
  rw [termNums_eq_of_perm h, hv]

/-! ## Head marking preserves the terminal yield -/

theorem leafNums_markRec : ∀ t : Tree, ∀ b : Bool,
    leafNums (markRec b t) = leafNums t := by
  apply treeInd (P := fun t => ∀ b : Bool, leafNums (markRec b t) = leafNums t)
  intro d cs ih b
  cases cs with
  | nil => simp [markRec, leafNums]
  | cons c cs =>
    have hlist : ∀ rest idx pos, (∀ x ∈ rest, x ∈ c :: cs) →
        (markRec.markList idx pos rest).map leafNums = rest.map leafNums := by
      intro rest
      induction rest with
      | nil => intro idx pos _; rfl
      | cons x xs ihx =>
        intro idx pos hsub
        simp only [markRec.markList, List.map_cons]
        rw [ih x (hsub x (by simp)), ihx idx (pos + 1) (fun y hy => hsub y (by simp [hy]))]
    have h1 : markRec.markList (markIndex ((c :: cs).map edgeOf)) 0 (c :: cs) ≠ [] := by
      simp [markRec.markList]
    rw [show markRec b (.node d (c :: cs)) =
        .node { d with head := some b }
          (markRec.markList (markIndex ((c :: cs).map edgeOf)) 0 (c :: cs)) from rfl]
    rw [leafNums_node_of_ne _ _ h1, leafNums_node_of_ne _ _ (by simp)]
    rw [hlist (c :: cs) _ 0 (fun y hy => hy)]

/-! ## Raising: structure of the result and yield preservation -/

theorem raiseList_eq_map (cs : List Tree) :
    raiseRec.raiseList cs = cs.map raiseRec := by
  induction cs with
  | nil => rfl
  | cons c cs ih => simp [raiseRec.raiseList, ih]

theorem dataOf_raiseRec (t : Tree) : dataOf (raiseRec t) = dataOf t := by
  cases t with
  | node d cs => rfl

theorem removedB_raiseRec (t : Tree) : removedB (raiseRec t) = removedB t := by
  cases t with
  | node d cs => rfl

theorem leafNums_eq_children (u : Tree) (h : childrenOf u ≠ []) :
    leafNums u = ((childrenOf u).map leafNums).flatten := by
  cases u with
  | node d cs => exact leafNums_node_of_ne d cs h

theorem flatten_map_flatten {α β : Type} (f : α → List β) (L : List (List α)) :
    (L.flatten.map f).flatten = (L.map fun l => (l.map f).flatten).flatten := by
  induction L with
  | nil => rfl
  | cons l L ih =>
    rw [List.flatten_cons, List.map_append, List.flatten_append, ih,
        List.map_cons, List.flatten_cons]

theorem flatten_map_perm {α β : Type} {l : List α} {f g : α → List β}
    (h : ∀ x ∈ l, (f x).Perm (g x)) :
    ((l.map f).flatten).Perm ((l.map g).flatten) := by
  induction l with
  | nil => exact List.Perm.refl _
  | cons x xs ih =>
    simp only [List.map_cons, List.flatten_cons]
    exact (h x (by simp)).append (ih fun y hy => h y (by simp [hy]))

theorem filter_not_append_perm {α : Type} (p : α → Bool) (l : List α) :
    (l.filter (fun x => !p x) ++ l.filter p).Perm l := by
  have h := List.filter_append_perm (fun x => !p x) l
  have h2 : l.filter (fun x => !!p x) = l.filter p :=
    List.filter_congr (fun x _ => by simp)
  rwa [h2] at h

theorem safeForRaise_child {d : NodeData} {cs : List Tree} {c : Tree}
    (hs : safeForRaise (.node d cs)) (hc : c ∈ cs) : safeForRaise c :=
  fun n hn => hs n (mem_nodes_trans hc hn)

theorem raise_perm : ∀ t : Tree, safeForRaise t →
    (leafNums (raiseRec t)).Perm (leafNums t) ∧
      (childrenOf (raiseRec t) = [] ↔ childrenOf t = []) := by
  apply treeInd (P := fun t => safeForRaise t →
    (leafNums (raiseRec t)).Perm (leafNums t) ∧
      (childrenOf (raiseRec t) = [] ↔ childrenOf t = []))
  intro d cs ih hsafe
  have hrec : ∀ c ∈ cs, (leafNums (raiseRec c)).Perm (leafNums c) ∧
      (childrenOf (raiseRec c) = [] ↔ childrenOf c = []) :=
    fun c hc => ih c hc (safeForRaise_child hsafe hc)
  have hkey : raiseRec (.node d cs) =
      .node d (raiseSplice (cs.map raiseRec)) := by
    simp [raiseRec, raiseList_eq_map]
  cases cs with
  | nil =>
    constructor
    · exact List.Perm.refl _
    · exact Iff.rfl
  | cons c0 cs0 =>
    -- abbreviations
    set cs2 := (c0 :: cs0).map raiseRec with hcs2
    have hRchildren : ∀ x ∈ cs2.filter removedB, childrenOf x ≠ [] := by
      intro x hxf
      have hxm : x ∈ cs2 := (List.mem_filter.mp hxf).1
      have hxr : removedB x = true := (List.mem_filter.mp hxf).2
      rcases List.mem_map.mp hxm with ⟨c, hcm, rfl⟩
      have hrc : removedB c = true := by rwa [removedB_raiseRec] at hxr
      have hcne : childrenOf c ≠ [] := by
        intro hnil
        have := hsafe c (mem_nodes_trans hcm (mem_nodes_self c)) hnil
        rw [this] at hrc
        exact Bool.noConfusion hrc
      intro hnil
      exact hcne ((hrec c hcm).2.mp hnil)
    have hsplice_ne : raiseSplice cs2 ≠ [] := by
      have hx0 : raiseRec c0 ∈ cs2 := by simp [hcs2]
      unfold raiseSplice
      intro hnil
      rcases List.append_eq_nil.mp hnil with ⟨hA, hB⟩
      by_cases hrem : removedB (raiseRec c0) = true
      · have hx0R : raiseRec c0 ∈ cs2.filter removedB :=
          List.mem_filter.mpr ⟨hx0, hrem⟩
        have hch : childrenOf (raiseRec c0) ≠ [] := hRchildren _ hx0R
        have := List.flatten_eq_nil_iff.mp hB (childrenOf (raiseRec c0))
          (List.mem_map_of_mem _ hx0R)
        exact hch this
      · have hx0A : raiseRec c0 ∈ cs2.filter (fun x => !removedB x) :=
          List.mem_filter.mpr ⟨hx0, by simp [hrem]⟩
        rw [hA] at hx0A
        exact absurd hx0A (List.not_mem_nil _)
    constructor
    · -- yield permutation
      rw [hkey]
      rw [leafNums_node_of_ne _ _ hsplice_ne,
          leafNums_node_of_ne _ _ (by simp)]
      unfold raiseSplice
      rw [List.map_append, List.flatten_append]
      have hBlock :
          (((cs2.filter removedB).map childrenOf).flatten.map leafNums).flatten
            = ((cs2.filter removedB).map leafNums).flatten := by
        rw [flatten_map_flatten]
        rw [List.map_map]
        congr 1
        apply List.map_congr_left
        intro r hr
        exact (leafNums_eq_children r (hRchildren r hr)).symm
      rw [hBlock]
      rw [← List.flatten_append, ← List.map_append]
      have hperm1 :
          ((cs2.filter (fun x => !removedB x) ++ cs2.filter removedB).map
            leafNums).flatten.Perm ((cs2.map leafNums).flatten) :=
        ((filter_not_append_perm removedB cs2).map leafNums).flatten
      apply hperm1.trans
      rw [hcs2, List.map_map]
      exact flatten_map_perm fun c hc => (hrec c hc).1
    · -- children emptiness
      rw [hkey]
      show raiseSplice cs2 = [] ↔ (c0 :: cs0 : List Tree) = []
      constructor
      · intro h; exact absurd h hsplice_ne
      · intro h; exact absurd h (by simp)

/-! ## Boyd splitting: blocks, pieces, combine -/

theorem blocksGo_flatten : ∀ (l curRev : List Tree),
    (blocksGo curRev l).flatten = curRev.reverse ++ l := by
  intro l
  induction l with
  | nil => intro curRev; simp [blocksGo]
  | cons c rest ih =>
    intro curRev
    cases curRev with
    | nil => simp [blocksGo, ih]
    | cons lastAdded tail =>
      by_cases hgap : maxNum lastAdded + 1 < minNum c
      · simp [blocksGo, hgap, ih]
      · simp [blocksGo, hgap, ih]

theorem blocksOf_flatten (l : List Tree) : (blocksOf l).flatten = l := by
  cases l with
  | nil => rfl
  | cons c rest => simp [blocksOf, blocksGo_flatten]

theorem blocksGo_ne_nil : ∀ (l curRev : List Tree), curRev ≠ [] →
    ∀ b ∈ blocksGo curRev l, b ≠ [] := by
  intro l
  induction l with
  | nil =>
    intro curRev hne b hb
    simp only [blocksGo, List.mem_singleton] at hb
    subst hb
    simpa using hne
  | cons c rest ih =>
    intro curRev hne b hb
    cases curRev with
    | nil => exact absurd rfl hne
    | cons lastAdded tail =>
      by_cases hgap : maxNum lastAdded + 1 < minNum c
      · simp only [blocksGo, hgap, if_pos, List.mem_cons] at hb
        rcases hb with hb | hb
        · subst hb; simp
        · exact ih [c] (by simp) b hb
      · simp only [blocksGo, hgap, if_neg, ite_false] at hb
        exact ih (c :: lastAdded :: tail) (by simp) b hb

theorem blocksOf_ne_nil (l : List Tree) : ∀ b ∈ blocksOf l, b ≠ [] := by
  cases l with
  | nil => intro b hb; simp [blocksOf] at hb
  | cons c rest => exact blocksGo_ne_nil rest [c] (by simp)

theorem mem_mkPieces {d : NodeData} {hd : Bool} :
    ∀ {bs : List (List Tree)} {i : Nat} {p : Tree}, p ∈ mkPieces d hd i bs →
      ∃ b ∈ bs, childrenOf p = b ∧ splitOf p = some true ∧
        headOf p = some hd ∧ hbOf p = some (b.any coversHead) := by
  intro bs
  induction bs with
  | nil => intro i p hp; simp [mkPieces] at hp
  | cons b bs ih =>
    intro i p hp
    simp only [mkPieces, List.mem_cons] at hp
    rcases hp with hp | hp
    · subst hp
      exact ⟨b, by simp, rfl, rfl, rfl, rfl⟩
    · rcases ih hp with ⟨b2, hb2, h⟩
      exact ⟨b2, by simp [hb2], h⟩

theorem mkPieces_length (d : NodeData) (hd : Bool) :
    ∀ (bs : List (List Tree)) (i : Nat), (mkPieces d hd i bs).length = bs.length := by
  intro bs
  induction bs with
  | nil => intro i; rfl
  | cons b bs ih => intro i; simp [mkPieces, ih]

theorem mkPieces_map_leafNums (d : NodeData) (hd : Bool) :
    ∀ (bs : List (List Tree)) (i : Nat), (∀ b ∈ bs, b ≠ []) →
      (mkPieces d hd i bs).map leafNums =
        bs.map fun b => (b.map leafNums).flatten := by
  intro bs
  induction bs with
  | nil => intro i _; rfl
  | cons b bs ih =>
    intro i hne
    simp only [mkPieces, List.map_cons]
    rw [leafNums_node_of_ne _ _ (hne b (by simp)),
        ih (i + 1) (fun x hx => hne x (by simp [hx]))]

theorem mkPieces_countHB (d : NodeData) (hd : Bool) :
    ∀ (bs : List (List Tree)) (i : Nat),
      (mkPieces d hd i bs).countP (fun p => hbOf p == some true) =
        bs.countP fun b => b.any coversHead := by
  intro bs
  induction bs with
  | nil => intro i; rfl
  | cons b bs ih =>
    intro i
    simp only [mkPieces, List.countP_cons, ih (i + 1)]
    congr 1
    show (if (hbOf (Tree.node _ b) == some true) = true then 1 else 0) =
      if (b.any coversHead) = true then 1 else 0
    cases hcase : b.any coversHead <;> simp [hbOf, dataOf, hcase]

theorem mkPieces_countCovers (d : NodeData) (hd : Bool) :
    ∀ (bs : List (List Tree)) (i : Nat),
      (mkPieces d hd i bs).countP coversHead =
        if hd then bs.countP (fun b => b.any coversHead) else 0 := by
  intro bs
  induction bs with
  | nil => intro i; cases hd <;> rfl
  | cons b bs ih =>
    intro i
    simp only [mkPieces, List.countP_cons, ih (i + 1)]
    cases hd <;> cases hcase : b.any coversHead <;>
      simp [coversHead, headOf, splitOf, hbOf, dataOf, hcase]

theorem combine_perm (rs : List (List Tree)) :
    (combine rs).Perm rs.flatten := by
  unfold combine
  have h1 : rs.filter (fun r => r.length != 1) =
      rs.filter fun r => !(r.length == 1) :=
    List.filter_congr fun r _ => rfl
  rw [h1, ← List.flatten_append]
  exact (List.filter_append_perm _ rs).flatten

theorem mem_combine {rs : List (List Tree)} {x : Tree}
    (h : x ∈ combine rs) : ∃ r ∈ rs, x ∈ r := by
  have := (combine_perm rs).mem_iff.mp h
  exact List.mem_flatten.mp this

theorem combine_of_singles : ∀ {rs : List (List Tree)},
    (∀ r ∈ rs, r.length = 1) → combine rs = rs.flatten := by
  intro rs
  induction rs with
  | nil => intro _; rfl
  | cons r rs ih =>
    intro h
    have hr : r.length = 1 := h r (by simp)
    have hrest := ih fun x hx => h x (by simp [hx])
    unfold combine at hrest ⊢
    simp only [List.filter_cons, hr]
    norm_num
    exact hrest

/-- `boydList` succeeds iff every child succeeds, pointwise. -/
theorem boydList_ok : ∀ {cs : List Tree} {rs : List (List Tree)},
    boydRec.boydList cs = .ok rs →
      List.Forall₂ (fun c r => boydRec c = .ok r) cs rs := by
  intro cs
  induction cs with
  | nil =>
    intro rs h
    simp only [boydRec.boydList] at h
    injection h with h
    subst h
    exact List.Forall₂.nil
  | cons c cs ih =>
    intro rs h
    simp only [boydRec.boydList] at h
    cases hc : boydRec c with
    | error e => rw [hc] at h; exact Except.noConfusion h
    | ok r =>
      rw [hc] at h
      cases hrest : boydRec.boydList cs with
      | error e => rw [hrest] at h; exact Except.noConfusion h
      | ok rs2 =>
        rw [hrest] at h
        injection h with h
        subst h
        exact List.Forall₂.cons hc (ih hrest)

theorem mem_nodes_cases {n t : Tree} (h : n ∈ nodes t) :
    n = t ∨ ∃ c ∈ childrenOf t, n ∈ nodes c := by
  cases t with
  | node d cs =>
    simp only [nodes, nodesL_eq, List.mem_cons, List.mem_flatten,
      List.mem_map] at h
    rcases h with h | ⟨l2, ⟨c, hc, rfl⟩, hn⟩
    · exact Or.inl h
    · exact Or.inr ⟨c, hc, hn⟩

theorem mem_nodes_of_mem_nodes : ∀ (t : Tree) {s n : Tree},
    s ∈ nodes t → n ∈ nodes s → n ∈ nodes t := by
  apply treeInd (P := fun t => ∀ {s n : Tree},
    s ∈ nodes t → n ∈ nodes s → n ∈ nodes t)
  intro d cs ih s n hs hn
  rcases mem_nodes_cases hs with rfl | ⟨c, hc, hsc⟩
  · exact hn
  · exact mem_nodes_trans hc (ih c hc hsc hn)

theorem forall₂_of_pointwise {Q : Tree → List Tree → Prop}
    {cs : List Tree} {rs : List (List Tree)}
    (hf : List.Forall₂ (fun c r => boydRec c = .ok r) cs rs)
    (hih : ∀ c ∈ cs, ∀ r, boydRec c = .ok r → Q c r) :
    List.Forall₂ Q cs rs := by
  induction hf with
  | nil => exact List.Forall₂.nil
  | @cons c r cs2 rs2 h hrest ihf =>
    exact List.Forall₂.cons (hih c (by simp) r h)
      (ihf fun x hx => hih x (by simp [hx]))

theorem flatten_perm_forall₂ {α γ β : Type} {cs : List α} {rs : List γ}
    {f : γ → List β} {g : α → List β}
    (h : List.Forall₂ (fun c r => (f r).Perm (g c)) cs rs) :
    ((rs.map f).flatten).Perm ((cs.map g).flatten) := by
  induction h with
  | nil => exact List.Perm.refl _
  | @cons c r cs2 rs2 hcr hrest ihf =>
    simp only [List.map_cons, List.flatten_cons]
    exact hcr.append ihf

theorem boydRec_ne_nil : ∀ (t : Tree) (l : List Tree),
    boydRec t = .ok l → l ≠ [] := by
  intro t l h
  cases t with
  | node d cs =>
    rw [boydRec] at h
    cases hbl : boydRec.boydList cs with
    | error e => rw [hbl] at h; exact Except.noConfusion h
    | ok rs =>
      rw [hbl] at h
      simp only at h
      by_cases hlen : (blocksOf (combine rs)).length ≤ 1
      · rw [if_pos hlen] at h
        injection h with h
        subst h
        simp
      · rw [if_neg hlen] at h
        cases hh : NodeData.head d with
        | none => rw [hh] at h; exact Except.noConfusion h
        | some hd =>
          rw [hh] at h
          injection h with h
          subst h
          intro hnil
          have hlen2 := mkPieces_length
            { d with head := some hd, split := some false, head_block := some true }
            hd (blocksOf (combine rs)) 1
          rw [hnil] at hlen2
          simp at hlen2
          omega

theorem boyd_perm : ∀ (t : Tree), ∀ (l : List Tree), boydRec t = .ok l →
    ((l.map leafNums).flatten).Perm (leafNums t) := by
  apply treeInd (P := fun t => ∀ l, boydRec t = .ok l →
    ((l.map leafNums).flatten).Perm (leafNums t))
  intro d cs ih l h
  rw [boydRec] at h
  cases hbl : boydRec.boydList cs with
  | error e => rw [hbl] at h; exact Except.noConfusion h
  | ok rs =>
    rw [hbl] at h
    simp only at h
    have hf2 := boydList_ok hbl
    have hpoint : List.Forall₂
        (fun c r => (((r.map leafNums).flatten)).Perm (leafNums c)) cs rs :=
      forall₂_of_pointwise hf2 fun c hc r hr => ih c hc r hr
    have hperm_cs : (((combine rs).map leafNums).flatten).Perm
        ((cs.map leafNums).flatten) := by
      have h1 : (((combine rs).map leafNums).flatten).Perm
          ((rs.flatten.map leafNums).flatten) :=
        (((combine_perm rs).map leafNums)).flatten
      apply h1.trans
      rw [flatten_map_flatten]
      exact flatten_perm_forall₂ hpoint
    by_cases hlen : (blocksOf (combine rs)).length ≤ 1
    · rw [if_pos hlen] at h
      injection h with h
      subst h
      simp only [List.map_cons, List.map_nil, List.flatten_cons,
        List.flatten_nil, List.append_nil]
      by_cases hcs : cs = []
      · subst hcs
        have hrs : rs = [] := by cases hf2; rfl
        subst hrs
        exact List.Perm.refl _
      · have hcomb_ne : combine rs ≠ [] := by
          intro hnil
          rw [hnil] at hperm_cs
          simp only [List.map_nil, List.flatten_nil] at hperm_cs
          have hflat := hperm_cs.symm.eq_nil
          cases cs with
          | nil => exact hcs rfl
          | cons c0 cs0 =>
            have := List.flatten_eq_nil_iff.mp hflat (leafNums c0) (by simp)
            exact leafNums_ne_nil c0 this
        rw [leafNums_node_of_ne _ _ hcomb_ne, leafNums_node_of_ne _ _ hcs]
        exact hperm_cs
    · rw [if_neg hlen] at h
      cases hh : NodeData.head d with
      | none => rw [hh] at h; exact Except.noConfusion h
      | some hd =>
        rw [hh] at h
        injection h with h
        subst h
        rw [mkPieces_map_leafNums _ _ _ _ (blocksOf_ne_nil _)]
        rw [← flatten_map_flatten, blocksOf_flatten]
        have hcs : cs ≠ [] := by
          intro hnil
          subst hnil
          have hrs : rs = [] := by cases hf2; rfl
          subst hrs
          simp [combine, blocksOf] at hlen
        rw [leafNums_node_of_ne _ _ hcs]
        exact hperm_cs

theorem forall₂_mem_right {α β : Type} {R : α → β → Prop} :
    ∀ {as : List α} {bs : List β}, List.Forall₂ R as bs → ∀ {b : β}, b ∈ bs →
      ∃ a ∈ as, R a b := by
  intro as bs hf
  induction hf with
  | nil => intro b hb; simp at hb
  | @cons a b as2 bs2 hab hrest ihf =>
    intro x hx
    rcases List.mem_cons.mp hx with rfl | hx
    · exact ⟨a, by simp, hab⟩
    · rcases ihf hx with ⟨a2, ha2, hr⟩
      exact ⟨a2, by simp [ha2], hr⟩

theorem boyd_flags : ∀ (t : Tree), ∀ (l : List Tree), boydRec t = .ok l →
    ∀ p ∈ l, ∀ n ∈ nodes p,
      (splitOf n).isSome ∧ (hbOf n).isSome ∧
        (splitOf n = some false → hbOf n = some true) ∧
        (splitOf n = some true → childrenOf n ≠ []) := by
  apply treeInd (P := fun t => ∀ l, boydRec t = .ok l →
    ∀ p ∈ l, ∀ n ∈ nodes p,
      (splitOf n).isSome ∧ (hbOf n).isSome ∧
        (splitOf n = some false → hbOf n = some true) ∧
        (splitOf n = some true → childrenOf n ≠ []))
  intro d cs ih l h p hp n hn
  rw [boydRec] at h
  cases hbl : boydRec.boydList cs with
  | error e => rw [hbl] at h; exact Except.noConfusion h
  | ok rs =>
    rw [hbl] at h
    simp only at h
    have hf2 := boydList_ok hbl
    have hdeep : ∀ c2 ∈ combine rs, n ∈ nodes c2 →
        (splitOf n).isSome ∧ (hbOf n).isSome ∧
          (splitOf n = some false → hbOf n = some true) ∧
          (splitOf n = some true → childrenOf n ≠ []) := by
      intro c2 hc2 hn2
      rcases mem_combine hc2 with ⟨r, hr, hc2r⟩
      rcases forall₂_mem_right hf2 hr with ⟨c, hc, hcr⟩
      exact ih c hc r hcr c2 hc2r n hn2
    by_cases hlen : (blocksOf (combine rs)).length ≤ 1
    · rw [if_pos hlen] at h
      injection h with h
      subst h
      have hp2 := List.mem_singleton.mp hp
      subst hp2
      rcases mem_nodes_cases hn with rfl | ⟨c2, hc2, hn2⟩
      · refine ⟨by simp [splitOf, dataOf], by simp [hbOf, dataOf], ?_, ?_⟩
        · intro _; rfl
        · intro hcontra
          simp [splitOf, dataOf] at hcontra
      · exact hdeep c2 hc2 hn2
    · rw [if_neg hlen] at h
      cases hh : NodeData.head d with
      | none => rw [hh] at h; exact Except.noConfusion h
      | some hd =>
        rw [hh] at h
        injection h with h
        subst h
        rcases mem_mkPieces hp with ⟨b, hb, hchild, hsplit, hhead, hhb⟩
        rcases mem_nodes_cases hn with rfl | ⟨c2, hc2, hn2⟩
        · refine ⟨by simp [hsplit], by simp [hhb], ?_, ?_⟩
          · intro hcontra
            rw [hsplit] at hcontra
            injection hcontra with hcontra
            exact absurd hcontra (by simp)
          · intro _
            rw [hchild]
            exact blocksOf_ne_nil _ b hb
        · rw [hchild] at hc2
          have hc2comb : c2 ∈ combine rs := by
            rw [← blocksOf_flatten (combine rs)]
            exact List.mem_flatten.mpr ⟨b, hb, hc2⟩
          exact hdeep c2 hc2comb hn2

/-! ## Boyd splitting without head marking (error behaviour) -/

theorem flatten_map_singleton {α : Type} (ts : List α) :
    (ts.map fun t => [t]).flatten = ts := by
  induction ts with
  | nil => rfl
  | cons a as ih => simp [ih]

theorem mmKey_congr {a b : Tree} (h : leafNums a = leafNums b) :
    mmKey a = mmKey b := by
  unfold mmKey minNum maxNum
  rw [h]

theorem map_mmKey_of_map_leafNums : ∀ {l1 l2 : List Tree},
    l1.map leafNums = l2.map leafNums → l1.map mmKey = l2.map mmKey := by
  intro l1
  induction l1 with
  | nil =>
    intro l2 h
    cases l2 with
    | nil => rfl
    | cons b bs => simp at h
  | cons a as ih =>
    intro l2 h
    cases l2 with
    | nil => simp at h
    | cons b bs =>
      simp only [List.map_cons, List.cons.injEq] at h ⊢
      exact ⟨mmKey_congr h.1, ih h.2⟩

theorem blocksGo_length_congr : ∀ {l1 l2 c1 c2 : List Tree},
    l1.map mmKey = l2.map mmKey → c1.map mmKey = c2.map mmKey →
    (blocksGo c1 l1).length = (blocksGo c2 l2).length := by
  intro l1
  induction l1 with
  | nil =>
    intro l2 c1 c2 hl _
    cases l2 with
    | nil => rfl
    | cons b bs => simp at hl
  | cons c rest ih =>
    intro l2 c1 c2 hl hc
    cases l2 with
    | nil => simp at hl
    | cons c' rest' =>
      simp only [List.map_cons, List.cons.injEq] at hl
      cases c1 with
      | nil =>
        cases c2 with
        | nil =>
          show (blocksGo [c] rest).length = (blocksGo [c'] rest').length
          exact ih hl.2 (by simp [hl.1])
        | cons x xs => simp at hc
      | cons la t1 =>
        cases c2 with
        | nil => simp at hc
        | cons la' t2 =>
          simp only [List.map_cons, List.cons.injEq] at hc
          have hmax : maxNum la = maxNum la' := congrArg Prod.snd hc.1
          have hmin : minNum c = minNum c' := congrArg Prod.fst hl.1
          by_cases hgap : maxNum la + 1 < minNum c
          · have hgap2 : maxNum la' + 1 < minNum c' := by omega
            rw [show blocksGo (la :: t1) (c :: rest) =
              (la :: t1).reverse :: blocksGo [c] rest by simp [blocksGo, hgap]]
            rw [show blocksGo (la' :: t2) (c' :: rest') =
              (la' :: t2).reverse :: blocksGo [c'] rest' by
                simp [blocksGo, hgap2]]
            simp only [List.length_cons]
            have hrec := @ih rest' [c] [c'] hl.2 (by simp [hl.1])
            omega
          · have hgap2 : ¬ maxNum la' + 1 < minNum c' := by omega
            rw [show blocksGo (la :: t1) (c :: rest) =
              blocksGo (c :: la :: t1) rest by simp [blocksGo, hgap]]
            rw [show blocksGo (la' :: t2) (c' :: rest') =
              blocksGo (c' :: la' :: t2) rest' by simp [blocksGo, hgap2]]
            exact ih hl.2 (by simp [hl.1, hc.1, hc.2])

theorem blocksOf_length_congr {l1 l2 : List Tree}
    (h : l1.map mmKey = l2.map mmKey) :
    (blocksOf l1).length = (blocksOf l2).length := by
  cases l1 with
  | nil =>
    cases l2 with
    | nil => rfl
    | cons b bs => simp at h
  | cons a as =>
    cases l2 with
    | nil => simp at h
    | cons b bs =>
      simp only [List.map_cons, List.cons.injEq] at h
      exact blocksGo_length_congr h.2 (by simp [h.1])

theorem boyd_unmarked : ∀ t : Tree, unmarked t →
    boydRec t = .error "heads not marked?" ∨
      ∃ t2, boydRec t = .ok [t2] ∧ leafNums t2 = leafNums t ∧
        (childrenOf t2).map mmKey = (childrenOf t).map mmKey ∧
        ∀ n ∈ nodes t, (blocksOf (childrenOf n)).length ≤ 1 := by
  apply treeInd (P := fun t => unmarked t →
    boydRec t = .error "heads not marked?" ∨
      ∃ t2, boydRec t = .ok [t2] ∧ leafNums t2 = leafNums t ∧
        (childrenOf t2).map mmKey = (childrenOf t).map mmKey ∧
        ∀ n ∈ nodes t, (blocksOf (childrenOf n)).length ≤ 1)
  intro d cs ih hu
  have hlist : ∀ rest : List Tree, (∀ x ∈ rest, x ∈ cs) →
      (boydRec.boydList rest = .error "heads not marked?") ∨
        ∃ ts : List Tree, boydRec.boydList rest = .ok (ts.map fun t => [t]) ∧
          ts.map leafNums = rest.map leafNums ∧
          ∀ x ∈ rest, ∀ n ∈ nodes x, (blocksOf (childrenOf n)).length ≤ 1 := by
    intro rest
    induction rest with
    | nil => intro _; right; exact ⟨[], rfl, rfl, by simp⟩
    | cons x xs ihx =>
      intro hsub
      have hxcs : x ∈ cs := hsub x (by simp)
      have hux : unmarked x := fun n hn => hu n (mem_nodes_trans hxcs hn)
      rcases ih x hxcs hux with herr | ⟨t2, hok, hlf, _, hblocks⟩
      · left
        simp [boydRec.boydList, herr]
      · rcases ihx (fun y hy => hsub y (by simp [hy])) with
          herr2 | ⟨ts, hok2, hlf2, hblocks2⟩
        · left
          simp [boydRec.boydList, hok, herr2]
        · right
          refine ⟨t2 :: ts, ?_, ?_, ?_⟩
          · simp [boydRec.boydList, hok, hok2]
          · simp only [List.map_cons, List.cons.injEq]
            exact ⟨hlf, hlf2⟩
          · intro y hy n hn
            rcases List.mem_cons.mp hy with rfl | hy2
            · exact hblocks n hn
            · exact hblocks2 y hy2 n hn
  rcases hlist cs (fun x hx => hx) with herr | ⟨ts, hok, hlf, hblocks⟩
  · left
    rw [boydRec, herr]
  · have hcomb : combine (ts.map fun t => [t]) = ts := by
      rw [combine_of_singles (by simp), flatten_map_singleton]
    have hkeys : ts.map mmKey = cs.map mmKey := map_mmKey_of_map_leafNums hlf
    have hblen : (blocksOf ts).length = (blocksOf cs).length :=
      blocksOf_length_congr hkeys
    by_cases hle : (blocksOf cs).length ≤ 1
    · right
      refine ⟨.node { d with split := some false, head_block := some true } ts,
        ?_, ?_, ?_, ?_⟩
      · rw [boydRec, hok]
        simp only [hcomb]
        rw [if_pos (by omega : (blocksOf ts).length ≤ 1)]
      · by_cases hcs : cs = []
        · subst hcs
          have hts : ts = [] := by
            cases hts2 : ts with
            | nil => rfl
            | cons a as => rw [hts2] at hlf; simp at hlf
          subst hts
          rfl
        · have hts : ts ≠ [] := by
            intro hnil
            rw [hnil] at hlf
            cases cs with
            | nil => exact hcs rfl
            | cons a as => simp at hlf
          rw [leafNums_node_of_ne _ _ hts, leafNums_node_of_ne _ _ hcs, hlf]
      · exact hkeys
      · intro n hn
        rcases mem_nodes_cases hn with rfl | ⟨c2, hc2, hn2⟩
        · exact hle
        · exact hblocks c2 hc2 n hn2
    · left
      have hhd : headOf (.node d cs) = none := hu _ (mem_nodes_self _)
      rw [boydRec, hok]
      simp only [hcomb]
      rw [if_neg (by omega : ¬ (blocksOf ts).length ≤ 1)]
      rw [show NodeData.head d = none from hhd]

/-! ## Boyd splitting on head-marked trees -/

theorem boydRec_node_ok {d : NodeData} {cs : List Tree} {rs : List (List Tree)}
    (h : boydRec.boydList cs = .ok rs) :
    boydRec (.node d cs) =
      if (blocksOf (combine rs)).length ≤ 1 then
        .ok [.node { d with split := some false, head_block := some true }
          (combine rs)]
      else
        match d.head with
        | none => .error "heads not marked?"
        | some hd =>
          .ok (mkPieces { d with split := some false, head_block := some true }
            hd 1 (blocksOf (combine rs))) := by
  rw [boydRec, h]

theorem HeadMarked_child {d : NodeData} {cs : List Tree} {c : Tree}
    (hm : HeadMarked (.node d cs)) (hc : c ∈ cs) : HeadMarked c :=
  fun n hn => hm n (mem_nodes_trans hc hn)

theorem HeadMarked_mem {t s : Tree} (hm : HeadMarked t) (hs : s ∈ nodes t) :
    HeadMarked s :=
  fun n hn => hm n (mem_nodes_of_mem_nodes t hs hn)

theorem countP_any_of_sum_one {α : Type} (p : α → Bool) :
    ∀ L : List (List α), (L.map (List.countP p)).sum = 1 →
      L.countP (fun b => b.any p) = 1 := by
  intro L
  induction L with
  | nil => intro h; simp at h
  | cons b L ih =>
    intro h
    simp only [List.map_cons, List.sum_cons] at h
    simp only [List.countP_cons]
    by_cases hb : b.countP p = 0
    · have hany : b.any p = false := by
        cases hany2 : b.any p
        · rfl
        · rcases List.any_eq_true.mp hany2 with ⟨x, hx, hpx⟩
          have hpos : 0 < b.countP p := List.countP_pos_iff.mpr ⟨x, hx, hpx⟩
          omega
      rw [ih (by omega)]
      simp [hany]
    · have hb1 : b.countP p = 1 := by omega
      have hsum0 : (L.map (List.countP p)).sum = 0 := by omega
      have hany : b.any p = true := by
        rcases List.countP_pos_iff.mp (Nat.pos_of_ne_zero hb) with ⟨x, hx, hpx⟩
        exact List.any_eq_true.mpr ⟨x, hx, hpx⟩
      have hrest : L.countP (fun b2 => b2.any p) = 0 := by
        rw [List.countP_eq_zero]
        intro b2 hb2
        have hz : b2.countP p = 0 := by
          by_contra hnz
          have hmem : b2.countP p ∈ L.map (List.countP p) :=
            List.mem_map_of_mem _ hb2
          have := (List.sum_eq_zero_iff.mp hsum0) _ hmem
          omega
        simp only [Bool.not_eq_true]
        cases hany2 : b2.any p
        · rfl
        · rcases List.any_eq_true.mp hany2 with ⟨x, hx, hpx⟩
          have hpos : 0 < b2.countP p := List.countP_pos_iff.mpr ⟨x, hx, hpx⟩
          omega
      rw [hrest]
      simp [hany]

theorem combine_countP (p : Tree → Bool) (rs : List (List Tree)) :
    (combine rs).countP p = (rs.map (List.countP p)).sum := by
  rw [(combine_perm rs).countP_eq, List.countP_flatten]

theorem sum_counts_forall₂ {cs : List Tree} {rs : List (List Tree)}
    (h : List.Forall₂ (fun c r => r.countP coversHead =
        if headOf c == some true then 1 else 0) cs rs) :
    (rs.map (List.countP coversHead)).sum =
      cs.countP fun c => headOf c == some true := by
  induction h with
  | nil => rfl
  | @cons c r cs2 rs2 hcr hrest ihf =>
    simp only [List.map_cons, List.sum_cons, List.countP_cons, ihf, hcr]
    by_cases hx : (headOf c == some true) = true
    · simp [hx]; omega
    · simp [hx]

theorem boyd_marked : ∀ t : Tree, HeadMarked t →
    ∃ l, boydRec t = .ok l ∧
      (∀ p ∈ l, headOf p = headOf t) ∧
      (l.countP coversHead = if headOf t == some true then 1 else 0) ∧
      (l.countP (fun p => hbOf p == some true) = 1) ∧
      (1 < l.length → ∀ p ∈ l, splitOf p = some true ∧
        hbOf p = some ((childrenOf p).any coversHead)) := by
  apply treeInd (P := fun t => HeadMarked t →
    ∃ l, boydRec t = .ok l ∧
      (∀ p ∈ l, headOf p = headOf t) ∧
      (l.countP coversHead = if headOf t == some true then 1 else 0) ∧
      (l.countP (fun p => hbOf p == some true) = 1) ∧
      (1 < l.length → ∀ p ∈ l, splitOf p = some true ∧
        hbOf p = some ((childrenOf p).any coversHead)))
  intro d cs ih hm
  have hlist : ∀ rest : List Tree, (∀ x ∈ rest, x ∈ cs) →
      ∃ rs, boydRec.boydList rest = .ok rs ∧
        List.Forall₂ (fun c r => r.countP coversHead =
          if headOf c == some true then 1 else 0) rest rs := by
    intro rest
    induction rest with
    | nil => exact fun _ => ⟨[], rfl, List.Forall₂.nil⟩
    | cons x xs ihx =>
      intro hsub
      have hxcs : x ∈ cs := hsub x (by simp)
      rcases ih x hxcs (HeadMarked_child hm hxcs) with
        ⟨r, hok, _, hcov, _, _⟩
      rcases ihx (fun y hy => hsub y (by simp [hy])) with ⟨rs, hok2, hf⟩
      exact ⟨r :: rs, by simp [boydRec.boydList, hok, hok2],
        List.Forall₂.cons hcov hf⟩
  rcases hlist cs (fun x hx => hx) with ⟨rs, hok, hf⟩
  have hcount : (combine rs).countP coversHead =
      cs.countP (fun c => headOf c == some true) := by
    rw [combine_countP]
    exact sum_counts_forall₂ hf
  by_cases hlen : (blocksOf (combine rs)).length ≤ 1
  · -- the node's yield is already contiguous: one replacement node
    refine ⟨[.node { d with split := some false, head_block := some true }
      (combine rs)], ?_, ?_, ?_, ?_, ?_⟩
    · rw [boydRec_node_ok hok, if_pos hlen]
    · intro p hp
      rw [List.mem_singleton.mp hp]
      rfl
    · show List.countP coversHead [_] = _
      rw [List.countP_singleton]
      have hch : coversHead (Tree.node
          { d with split := some false, head_block := some true }
          (combine rs)) = (d.head == some true) := by
        simp [coversHead, headOf, splitOf, hbOf, dataOf]
      rw [hch]
      rfl
    · show List.countP (fun p => hbOf p == some true) [_] = 1
      rw [List.countP_singleton]
      simp [hbOf, dataOf]
    · intro habs
      simp at habs
  · -- several blocks: the node splits
    have hne : cs ≠ [] := by
      intro hnil
      subst hnil
      cases hok2 : boydRec.boydList ([] : List Tree) with
      | error e => rw [hok2] at hok; exact Except.noConfusion hok
      | ok rs2 =>
        rw [hok2] at hok
        injection hok with hok
        have : rs = [] := by
          have h0 : rs2 = [] := by
            have h3 := hok2
            simp [boydRec.boydList] at h3
            exact h3
          rw [← hok, h0]
        subst this
        simp [combine, blocksOf] at hlen
    have hsome : (headOf (.node d cs)).isSome := (hm _ (mem_nodes_self _)).1
    obtain ⟨hd, hhd⟩ : ∃ hd, d.head = some hd := by
      cases hh : d.head with
      | none =>
        rw [show headOf (.node d cs) = d.head from rfl, hh] at hsome
        simp at hsome
      | some x => exact ⟨x, rfl⟩
    have hcs1 : cs.countP (fun c => headOf c == some true) = 1 :=
      (hm _ (mem_nodes_self _)).2 hne
    have hcount1 : (combine rs).countP coversHead = 1 := by
      rw [hcount, hcs1]
    have hsum : ((blocksOf (combine rs)).map (List.countP coversHead)).sum
        = 1 := by
      rw [← List.countP_flatten, blocksOf_flatten]
      exact hcount1
    have hbs1 : (blocksOf (combine rs)).countP (fun b => b.any coversHead)
        = 1 := countP_any_of_sum_one _ _ hsum
    refine ⟨mkPieces { d with split := some false, head_block := some true }
      hd 1 (blocksOf (combine rs)), ?_, ?_, ?_, ?_, ?_⟩
    · rw [boydRec_node_ok hok, if_neg hlen, hhd]
    · intro p hp
      rcases mem_mkPieces hp with ⟨b, _, _, _, hhead, _⟩
      rw [hhead]
      show _ = d.head
      rw [hhd]
    · rw [mkPieces_countCovers]
      show _ = if (d.head == some true) = true then 1 else 0
      rw [hhd]
      cases hd with
      | false => simp
      | true => simp [hbs1]
    · rw [mkPieces_countHB]
      exact hbs1
    · intro _ p hp
      rcases mem_mkPieces hp with ⟨b, _, hchild, hsplit, _, hhb⟩
      exact ⟨hsplit, by rw [hhb, hchild]⟩

/-! ## Head marking: structure of the marked tree -/

theorem headOf_markRec (b : Bool) (t : Tree) :
    headOf (markRec b t) = some b := by
  cases t with
  | node d cs => rfl

theorem edgeOf_markRec (b : Bool) (t : Tree) :
    edgeOf (markRec b t) = edgeOf t := by
  cases t with
  | node d cs => rfl

theorem markList_length (idx : Nat) : ∀ (cs : List Tree) (pos : Nat),
    (markRec.markList idx pos cs).length = cs.length := by
  intro cs
  induction cs with
  | nil => intro pos; rfl
  | cons c cs ih => intro pos; simp [markRec.markList, ih]

theorem markList_getElem (idx : Nat) : ∀ (cs : List Tree) (pos j : Nat),
    (markRec.markList idx pos cs)[j]? =
      (cs[j]?).map fun c => markRec ((pos + j) == idx) c := by
  intro cs
  induction cs with
  | nil => intro pos j; simp [markRec.markList]
  | cons c cs ih =>
    intro pos j
    cases j with
    | zero => simp [markRec.markList]
    | succ j2 =>
      have harith : pos + 1 + j2 = pos + (j2 + 1) := by omega
      calc (markRec.markList idx pos (c :: cs))[j2 + 1]?
          = (markRec.markList idx (pos + 1) cs)[j2]? := by
            simp [markRec.markList]
        _ = (cs[j2]?).map (fun c2 => markRec ((pos + 1 + j2) == idx) c2) :=
            ih (pos + 1) j2
        _ = (cs[j2]?).map (fun c2 => markRec ((pos + (j2 + 1)) == idx) c2) := by
            rw [harith]
        _ = ((c :: cs)[j2 + 1]?).map
            (fun c2 => markRec ((pos + (j2 + 1)) == idx) c2) := by simp

theorem markList_map_edge (idx : Nat) : ∀ (cs : List Tree) (pos : Nat),
    (markRec.markList idx pos cs).map edgeOf = cs.map edgeOf := by
  intro cs
  induction cs with
  | nil => intro pos; rfl
  | cons c cs ih =>
    intro pos
    simp [markRec.markList, edgeOf_markRec, ih]

theorem markList_mem (idx : Nat) : ∀ {cs : List Tree} {pos : Nat} {x : Tree},
    x ∈ markRec.markList idx pos cs → ∃ c ∈ cs, ∃ fl, x = markRec fl c := by
  intro cs
  induction cs with
  | nil => intro pos x hx; simp [markRec.markList] at hx
  | cons c cs ih =>
    intro pos x hx
    rcases List.mem_cons.mp hx with rfl | hx2
    · exact ⟨c, by simp, _, rfl⟩
    · rcases ih hx2 with ⟨c2, hc2, fl, hfl⟩
      exact ⟨c2, by simp [hc2], fl, hfl⟩

theorem markIndex_lt {es : List String} (hne : es ≠ []) :
    markIndex es < es.length := by
  have hlen : 0 < es.length := List.length_pos.mpr hne
  unfold markIndex
  by_cases hhd : es.contains "HD"
  · rw [if_pos hhd]
    apply List.findIdx_lt_length_of_exists
    rcases List.contains_iff_exists_mem_beq.mp hhd with ⟨x, hx, hbeq⟩
    exact ⟨x, hx, by simpa using (beq_iff_eq.mp hbeq).symm ▸ rfl⟩
  · rw [if_neg hhd]
    by_cases hnk : es.contains "NK"
    · rw [if_pos hnk]
      omega
    · rw [if_neg hnk]
      exact hlen

theorem contains_iff_mem {es : List String} {a : String} :
    es.contains a = true ↔ a ∈ es := by
  constructor
  · intro h
    rcases List.contains_iff_exists_mem_beq.mp h with ⟨x, hx, hbeq⟩
    rwa [show a = x from beq_iff_eq.mp hbeq]
  · intro h
    exact List.contains_iff_exists_mem_beq.mpr ⟨a, h, by simp⟩

theorem markIndex_spec (es : List String) (hne : es ≠ []) :
    headChoice es (markIndex es) := by
  have hlen : 0 < es.length := List.length_pos.mpr hne
  unfold headChoice markIndex
  by_cases hhd : es.contains "HD"
  · rw [if_pos hhd]
    left
    have hmem : "HD" ∈ es := contains_iff_mem.mp hhd
    have hex : ∃ x ∈ es, (x == "HD") = true := ⟨"HD", hmem, by simp⟩
    have hlt : es.findIdx (· == "HD") < es.length :=
      List.findIdx_lt_length_of_exists hex
    refine ⟨hmem, ?_, ?_⟩
    · rw [List.getElem?_eq_getElem hlt]
      have := @List.findIdx_getElem _ (· == "HD") es hlt
      rw [beq_iff_eq.mp this]
    · intro j hj heq
      have hjlt : j < es.length := by omega
      have hfalse := List.not_of_lt_findIdx hj
      rw [List.getElem?_eq_getElem hjlt] at heq
      injection heq with heq
      rw [heq] at hfalse
      simp at hfalse
  · rw [if_neg hhd]
    have hmemnot : "HD" ∉ es := fun hmem => hhd (contains_iff_mem.mpr hmem)
    by_cases hnk : es.contains "NK"
    · rw [if_pos hnk]
      right; left
      have hmem : "NK" ∈ es := contains_iff_mem.mp hnk
      have hmemrev : "NK" ∈ es.reverse := List.mem_reverse.mpr hmem
      have hex : ∃ x ∈ es.reverse, (x == "NK") = true := ⟨"NK", hmemrev, by simp⟩
      have hrevlt : es.reverse.findIdx (· == "NK") < es.length := by
        have := List.findIdx_lt_length_of_exists hex
        rwa [List.length_reverse] at this
      refine ⟨hmemnot, hmem, ?_, ?_⟩
      · have hrev := @List.findIdx_getElem _ (· == "NK") es.reverse
          (by rwa [List.length_reverse])
        have hr2 : es.reverse[es.reverse.findIdx (· == "NK")]? = some "NK" := by
          rw [List.getElem?_eq_getElem (by rwa [List.length_reverse])]
          rw [beq_iff_eq.mp hrev]
        rw [List.getElem?_reverse hrevlt] at hr2
        exact hr2
      · intro j hj heq
        have hjlt : j < es.length := by
          by_contra hge
          rw [List.getElem?_eq_none (by omega)] at heq
          exact Option.noConfusion heq
        have hk : es.length - 1 - (es.length - 1 - j) = j := by omega
        have hklt : es.length - 1 - j < es.reverse.findIdx (· == "NK") := by
          omega
        have hfalse := List.not_of_lt_findIdx hklt
        have hkrange : es.length - 1 - j < es.length := by omega
        have hrevj : es.reverse[es.length - 1 - j]? = es[j]? := by
          rw [List.getElem?_reverse hkrange, hk]
        rw [List.getElem?_eq_getElem (by rwa [List.length_reverse] : _ < es.reverse.length)] at hrevj
        rw [heq] at hrevj
        injection hrevj with hrevj
        rw [hrevj] at hfalse
        simp at hfalse
    · rw [if_neg hnk]
      right; right
      exact ⟨hmemnot, fun hmem => hnk (contains_iff_mem.mpr hmem), rfl⟩

theorem marked_nodes : ∀ t : Tree, ∀ b : Bool, ∀ n ∈ nodes (markRec b t),
    childrenOf n ≠ [] →
    ∃ i, i < (childrenOf n).length ∧
      (∀ j, ∀ hj : j < (childrenOf n).length,
        (headOf ((childrenOf n).get ⟨j, hj⟩) = some true ↔ j = i)) ∧
      headChoice ((childrenOf n).map edgeOf) i := by
  apply treeInd (P := fun t => ∀ b : Bool, ∀ n ∈ nodes (markRec b t),
    childrenOf n ≠ [] →
    ∃ i, i < (childrenOf n).length ∧
      (∀ j, ∀ hj : j < (childrenOf n).length,
        (headOf ((childrenOf n).get ⟨j, hj⟩) = some true ↔ j = i)) ∧
      headChoice ((childrenOf n).map edgeOf) i)
  intro d cs ih b n hn hne
  have hform : markRec b (.node d cs) =
      .node { d with head := some b }
        (markRec.markList (markIndex (cs.map edgeOf)) 0 cs) := rfl
  rw [hform] at hn
  rcases mem_nodes_cases hn with rfl | ⟨x, hx, hnx⟩
  · -- n is the marked node itself
    set idx := markIndex (cs.map edgeOf) with hidx
    have hchild : childrenOf (Tree.node { d with head := some b }
        (markRec.markList idx 0 cs)) = markRec.markList idx 0 cs := rfl
    rw [hchild] at hne ⊢
    have hlen2 : (markRec.markList idx 0 cs).length = cs.length :=
      markList_length idx cs 0
    have hcsne : cs ≠ [] := by
      intro hnil
      rw [hnil] at hne
      exact hne rfl
    have hesne : cs.map edgeOf ≠ [] := by
      intro hnil
      exact hcsne (List.map_eq_nil_iff.mp hnil)
    have hilt : idx < cs.length := by
      have := markIndex_lt hesne
      rwa [List.length_map] at this
    refine ⟨idx, by omega, ?_, ?_⟩
    · intro j hj
      have hjcs : j < cs.length := by omega
      have hget : (markRec.markList idx 0 cs)[j]? =
          some (markRec ((0 + j) == idx) cs[j]) := by
        rw [markList_getElem, List.getElem?_eq_getElem hjcs]
        rfl
      have hget2 : (markRec.markList idx 0 cs).get ⟨j, hj⟩ =
          markRec ((0 + j) == idx) cs[j] := by
        have := List.getElem?_eq_getElem hj
        rw [hget] at this
        injection this with h2
        rw [List.get_eq_getElem]
        exact h2.symm
      rw [hget2, headOf_markRec]
      simp only [Nat.zero_add, Option.some.injEq]
      constructor
      · intro h2
        exact beq_iff_eq.mp h2
      · intro h2
        rw [h2]
        simp
    · rw [markList_map_edge]
      exact markIndex_spec (cs.map edgeOf) hesne
  · rcases markList_mem _ hx with ⟨c, hc, fl, rfl⟩
    exact ih c hc fl n hnx hne

/-! ## Root attachment -/

theorem foldl_min_le_init (ns : List Nat) : ∀ n, ns.foldl Nat.min n ≤ n := by
  induction ns with
  | nil => intro n; simp
  | cons m ms ih =>
    intro n
    simp only [List.foldl_cons]
    have := ih (Nat.min n m)
    have h2 : Nat.min n m ≤ n := Nat.min_le_left n m
    omega

theorem init_le_foldl_max (ns : List Nat) : ∀ n, n ≤ ns.foldl Nat.max n := by
  induction ns with
  | nil => intro n; simp
  | cons m ms ih =>
    intro n
    simp only [List.foldl_cons]
    have := ih (Nat.max n m)
    have h2 : n ≤ Nat.max n m := Nat.le_max_left n m
    omega

theorem minNum_le_maxNum (t : Tree) : minNum t ≤ maxNum t := by
  unfold minNum maxNum
  cases h : leafNums t with
  | nil => exact Nat.le_refl 0
  | cons n ns =>
    show List.foldl Nat.min n ns ≤ List.foldl Nat.max n ns
    have h1 := foldl_min_le_init ns n
    have h2 := init_le_foldl_max ns n
    omega

theorem extendR_bound : ∀ (l : List Tree) (fm tr : Nat),
    extendR fm tr l = tr ∨ fm < extendR fm tr l := by
  intro l
  induction l with
  | nil => intro fm tr; left; rfl
  | cons s rest ih =>
    intro fm tr
    unfold extendR
    by_cases h1 : minNum s < fm
    · rw [if_pos h1]; exact ih fm tr
    · rw [if_neg h1]
      by_cases h2 : fm + 1 < minNum s
      · rw [if_pos h2]; left; rfl
      · rw [if_neg h2]
        have hms := minNum_le_maxNum s
        rcases ih (maxNum s) (maxNum s + 1) with h | h
        · right; omega
        · right; omega

theorem extendR_ge (c : Tree) (l : List Tree) :
    maxNum c + 1 ≤ extendR (maxNum c) (maxNum c + 1) l := by
  rcases extendR_bound l (maxNum c) (maxNum c + 1) with h | h <;> omega

theorem pathL_some (n : Nat) : ∀ (cs : List Tree) (i : Nat) (p : List Nat),
    pathToLeaf.pathL i cs n = some p →
      ∃ j q c2, p = (i + j) :: q ∧ cs[j]? = some c2 ∧
        pathToLeaf c2 n = some q := by
  intro cs
  induction cs with
  | nil => intro i p h; simp [pathToLeaf.pathL] at h
  | cons c cs ih =>
    intro i p h
    simp only [pathToLeaf.pathL] at h
    cases hc : pathToLeaf c n with
    | some q =>
      rw [hc] at h
      injection h with h
      refine ⟨0, q, c, ?_, by simp, hc⟩
      rw [← h]
      simp
    | none =>
      rw [hc] at h
      rcases ih (i + 1) p h with ⟨j, q, c2, hp, hj, hq⟩
      refine ⟨j + 1, q, c2, ?_, by simpa using hj, hq⟩
      rw [hp]
      congr 1
      omega

theorem pathToLeaf_spec : ∀ (t : Tree), ∀ (n : Nat) (p : List Nat),
    pathToLeaf t n = some p →
      ∃ d2, nodeAt t p = some (.node d2 []) ∧ d2.num = n := by
  apply treeInd (P := fun t => ∀ (n : Nat) (p : List Nat),
    pathToLeaf t n = some p →
      ∃ d2, nodeAt t p = some (.node d2 []) ∧ d2.num = n)
  intro d cs ih n p h
  cases cs with
  | nil =>
    simp only [pathToLeaf] at h
    by_cases hn : d.num = n
    · rw [if_pos hn] at h
      injection h with h
      subst h
      exact ⟨d, rfl, hn⟩
    · rw [if_neg hn] at h
      exact Option.noConfusion h
  | cons c cs =>
    simp only [pathToLeaf] at h
    rcases pathL_some n (c :: cs) 0 p h with ⟨j, q, c2, hp, hj, hq⟩
    have hmem : c2 ∈ c :: cs := by
      have := List.getElem?_eq_some.mp hj
      rcases this with ⟨hjlt, hjeq⟩
      rw [← hjeq]
      exact List.getElem_mem hjlt
    rcases ih c2 hmem n q hq with ⟨d2, hnode, hnum⟩
    refine ⟨d2, ?_, hnum⟩
    rw [hp]
    simp only [nodeAt, Nat.zero_add]
    rw [hj]
    exact hnode

theorem pathToLeaf_proper : ∀ (t : Tree), ∀ (n : Nat) (pre : List Nat)
    (j : Nat) (rest : List Nat),
    pathToLeaf t n = some (pre ++ j :: rest) →
      ∃ d2 cs2, nodeAt t pre = some (.node d2 cs2) ∧ cs2 ≠ [] := by
  apply treeInd (P := fun t => ∀ (n : Nat) (pre : List Nat) (j : Nat)
    (rest : List Nat),
    pathToLeaf t n = some (pre ++ j :: rest) →
      ∃ d2 cs2, nodeAt t pre = some (.node d2 cs2) ∧ cs2 ≠ [])
  intro d cs ih n pre j rest h
  cases cs with
  | nil =>
    simp only [pathToLeaf] at h
    by_cases hn : d.num = n
    · rw [if_pos hn] at h
      injection h with h
      exact absurd h.symm (by simp)
    · rw [if_neg hn] at h
      exact Option.noConfusion h
  | cons c cs =>
    simp only [pathToLeaf] at h
    rcases pathL_some n (c :: cs) 0 (pre ++ j :: rest) h with
      ⟨j2, q, c2, hp, hj2, hq⟩
    cases pre with
    | nil => exact ⟨d, c :: cs, rfl, by simp⟩
    | cons a pre2 =>
      simp only [List.cons_append, List.cons.injEq] at hp
      rcases hp with ⟨ha, hqeq⟩
      have hmem : c2 ∈ c :: cs := by
        rcases List.getElem?_eq_some.mp hj2 with ⟨hjlt, hjeq⟩
        rw [← hjeq]
        exact List.getElem_mem hjlt
      rw [← hqeq] at hq
      rcases ih c2 hmem n pre2 j rest hq with ⟨d2, cs2, hnode, hcs2⟩
      refine ⟨d2, cs2, ?_, hcs2⟩
      simp only [nodeAt]
      rw [ha]
      simp only [Nat.zero_add] at hj2 ⊢
      rw [hj2]
      exact hnode

theorem lcp_prefix_left : ∀ p q : List Nat, ∃ r, lcp p q ++ r = p := by
  intro p
  induction p with
  | nil => intro q; exact ⟨[], by cases q <;> rfl⟩
  | cons a as ih =>
    intro q
    cases q with
    | nil => exact ⟨a :: as, rfl⟩
    | cons b bs =>
      by_cases hab : a = b
      · rcases ih bs with ⟨r, hr⟩
        exact ⟨r, by simp [lcp, hab, hr]⟩
      · exact ⟨a :: as, by simp [lcp, hab]⟩

theorem lcp_prefix_right : ∀ p q : List Nat, ∃ r, lcp p q ++ r = q := by
  intro p
  induction p with
  | nil => intro q; exact ⟨q, rfl⟩
  | cons a as ih =>
    intro q
    cases q with
    | nil => exact ⟨[], rfl⟩
    | cons b bs =>
      by_cases hab : a = b
      · rcases ih bs with ⟨r, hr⟩
        exact ⟨r, by simp [lcp, hab, hr]⟩
      · exact ⟨b :: bs, by simp [lcp, hab]⟩

theorem eraseIdx_perm {α : Type} : ∀ (cs : List α) (i : Nat) (c : α),
    cs[i]? = some c → cs.Perm (c :: cs.eraseIdx i) := by
  intro cs
  induction cs with
  | nil => intro i c h; simp at h
  | cons x rest ih =>
    intro i c h
    cases i with
    | zero =>
      simp only [List.getElem?_cons_zero] at h
      injection h with h
      subst h
      exact List.Perm.refl _
    | succ i2 =>
      simp only [List.getElem?_cons_succ] at h
      have hr := ih i2 c h
      have h1 : (x :: rest).Perm (x :: c :: rest.eraseIdx i2) := hr.cons x
      have h2 : (x :: c :: rest.eraseIdx i2).Perm
          (c :: x :: rest.eraseIdx i2) := List.Perm.swap c x _
      exact h1.trans h2

theorem set_flatten_perm {c : Tree} : ∀ (cs : List Tree) (i : Nat)
    (s s2 : Tree), cs[i]? = some s →
    (leafNums s2).Perm (leafNums s ++ leafNums c) →
    (((cs.set i s2).map leafNums).flatten).Perm
      ((cs.map leafNums).flatten ++ leafNums c) := by
  intro cs
  induction cs with
  | nil => intro i s s2 h _; simp at h
  | cons x rest ih =>
    intro i s s2 h hperm
    cases i with
    | zero =>
      simp only [List.getElem?_cons_zero] at h
      injection h with h
      subst h
      simp only [List.set_cons_zero, List.map_cons, List.flatten_cons]
      have h1 : (leafNums s2 ++ (rest.map leafNums).flatten).Perm
          ((leafNums x ++ leafNums c) ++ (rest.map leafNums).flatten) :=
        hperm.append_right _
      have h2 : ((leafNums x ++ leafNums c) ++
          (rest.map leafNums).flatten).Perm
          ((leafNums x ++ (rest.map leafNums).flatten) ++ leafNums c) := by
        rw [List.append_assoc, List.append_assoc]
        exact List.Perm.append_left _ List.perm_append_comm
      exact h1.trans h2
    | succ i2 =>
      simp only [List.getElem?_cons_succ] at h
      simp only [List.set_cons_succ, List.map_cons, List.flatten_cons]
      have hr := ih i2 s s2 h hperm
      have h1 : (leafNums x ++ ((rest.set i2 s2).map leafNums).flatten).Perm
          (leafNums x ++ ((rest.map leafNums).flatten ++ leafNums c)) :=
        hr.append_left _
      have h2 : leafNums x ++ ((rest.map leafNums).flatten ++ leafNums c) =
          (leafNums x ++ (rest.map leafNums).flatten) ++ leafNums c := by
        rw [List.append_assoc]
      rw [h2] at h1
      exact h1

theorem insertAt_perm : ∀ (t : Tree) (p : List Nat) {c t3 : Tree},
    insertAt t p c = some t3 →
    (∃ d2 cs2, nodeAt t p = some (.node d2 cs2) ∧ cs2 ≠ []) →
    (leafNums t3).Perm (leafNums t ++ leafNums c) := by
  intro t p
  induction p generalizing t with
  | nil =>
    intro c t3 hins hint
    cases t with
    | node d cs =>
      simp only [insertAt] at hins
      injection hins with hins
      subst hins
      rcases hint with ⟨d2, cs2, hnode, hcs2⟩
      simp only [nodeAt] at hnode
      injection hnode with hnode
      have hcs : cs ≠ [] := by
        intro hnil
        rw [hnil] at hnode
        injection hnode with _ h2
        exact hcs2 h2.symm
      rw [leafNums_node_of_ne _ _ (by simp : cs ++ [c] ≠ []),
          leafNums_node_of_ne _ _ hcs]
      simp only [List.map_append, List.flatten_append, List.map_cons,
        List.map_nil, List.flatten_cons, List.flatten_nil, List.append_nil]
      exact List.Perm.refl _
  | cons i p2 ih =>
    intro c t3 hins hint
    cases t with
    | node d cs =>
      simp only [insertAt] at hins
      cases hci : cs[i]? with
      | none => rw [hci] at hins; simp at hins
      | some s =>
        rw [hci] at hins
        simp only at hins
        cases hrec : insertAt s p2 c with
        | none => rw [hrec] at hins; simp at hins
        | some s2 =>
          rw [hrec] at hins
          simp only at hins
          injection hins with hins
          subst hins
          have hint2 : ∃ d2 cs2, nodeAt s p2 = some (.node d2 cs2) ∧
              cs2 ≠ [] := by
            rcases hint with ⟨d2, cs2, hnode, hcs2⟩
            simp only [nodeAt] at hnode
            rw [hci] at hnode
            exact ⟨d2, cs2, hnode, hcs2⟩
          have hperm := ih s hrec hint2
          have hcs : cs ≠ [] := by
            intro hnil
            rw [hnil] at hci
            simp at hci
          have hset_ne : cs.set i s2 ≠ [] := by
            intro hnil
            have hlen3 := congrArg List.length hnil
            simp at hlen3
            exact hcs hlen3
          rw [leafNums_node_of_ne _ _ hset_ne, leafNums_node_of_ne _ _ hcs]
          exact set_flatten_perm cs i s s2 hci hperm

theorem goRA_succ (tmin tmax fuel i : Nat) (d : NodeData) (cs : List Tree) :
    goRA tmin tmax (fuel + 1) i (.node d cs) =
      match cs[i]? with
      | none => .node d cs
      | some c =>
        if minNum c - 1 < tmin ∨
            tmax < extendR (maxNum c) (maxNum c + 1) (cs.drop (i + 1)) then
          goRA tmin tmax fuel (i + 1) (.node d cs)
        else
          match lcaPath (.node d (cs.eraseIdx i)) (minNum c - 1)
              (extendR (maxNum c) (maxNum c + 1) (cs.drop (i + 1))) with
          | none => goRA tmin tmax fuel (i + 1) (.node d cs)
          | some p =>
            match insertAt (.node d (cs.eraseIdx i)) p c with
            | none => goRA tmin tmax fuel (i + 1) (.node d cs)
            | some t3 => goRA tmin tmax fuel i t3 := by
  rw [goRA]

theorem goRA_perm (tmin tmax : Nat) : ∀ (fuel i : Nat) (t : Tree),
    (leafNums (goRA tmin tmax fuel i t)).Perm (leafNums t) := by
  intro fuel
  induction fuel with
  | zero => intro i t; exact List.Perm.refl _
  | succ fuel ih =>
    intro i t
    cases t with
    | node d cs =>
      rw [goRA_succ]
      cases hci : cs[i]? with
      | none => exact List.Perm.refl _
      | some c =>
        simp only []
        by_cases hguard : minNum c - 1 < tmin ∨
            tmax < extendR (maxNum c) (maxNum c + 1) (cs.drop (i + 1))
        · rw [if_pos hguard]
          exact ih (i + 1) _
        · rw [if_neg hguard]
          cases hlca : lcaPath (.node d (cs.eraseIdx i)) (minNum c - 1)
              (extendR (maxNum c) (maxNum c + 1) (cs.drop (i + 1))) with
          | none => exact ih (i + 1) _
          | some p =>
            simp only []
            cases hins : insertAt (.node d (cs.eraseIdx i)) p c with
            | none => exact ih (i + 1) _
            | some t3 =>
              apply (ih i t3).trans
              -- the boundary terminals carry different nums
              have htlr : minNum c - 1 <
                  extendR (maxNum c) (maxNum c + 1) (cs.drop (i + 1)) := by
                have h1 := extendR_ge c (cs.drop (i + 1))
                have h2 := minNum_le_maxNum c
                omega
              -- dissect the lca computation
              unfold lcaPath at hlca
              cases hp0 : pathToLeaf (.node d (cs.eraseIdx i))
                  (minNum c - 1) with
              | none => rw [hp0] at hlca; simp at hlca
              | some p0 =>
                cases hq0 : pathToLeaf (.node d (cs.eraseIdx i))
                    (extendR (maxNum c) (maxNum c + 1) (cs.drop (i + 1))) with
                | none => rw [hp0, hq0] at hlca; simp at hlca
                | some q0 =>
                  rw [hp0, hq0] at hlca
                  simp only at hlca
                  injection hlca with hlca
                  have hp0q0 : p0 ≠ q0 := by
                    intro heq
                    rcases pathToLeaf_spec _ _ _ hp0 with ⟨d1, hn1, hnum1⟩
                    rcases pathToLeaf_spec _ _ _ hq0 with ⟨d2, hn2, hnum2⟩
                    rw [heq, hn2] at hn1
                    injection hn1 with hn1
                    injection hn1 with hn1 _
                    rw [hn1] at hnum2
                    omega
                  have hint : ∃ d2 cs2,
                      nodeAt (.node d (cs.eraseIdx i)) p =
                        some (.node d2 cs2) ∧ cs2 ≠ [] := by
                    rcases lcp_prefix_left p0 q0 with ⟨r1, hr1⟩
                    rcases lcp_prefix_right p0 q0 with ⟨r2, hr2⟩
                    cases hr1c : r1 with
                    | nil =>
                      cases hr2c : r2 with
                      | nil =>
                        rw [hr1c] at hr1
                        rw [hr2c] at hr2
                        simp at hr1 hr2
                        exact absurd (hr1.symm.trans hr2) hp0q0
                      | cons j rest =>
                        rw [hr2c] at hr2
                        rw [hlca] at hr2
                        exact pathToLeaf_proper _ _ p j rest
                          (by rw [← hr2] at hq0; exact hq0)
                    | cons j rest =>
                      rw [hr1c] at hr1
                      rw [hlca] at hr1
                      exact pathToLeaf_proper _ _ p j rest
                        (by rw [← hr1] at hp0; exact hp0)
                  have hperm3 := insertAt_perm _ p hins hint
                  apply hperm3.trans
                  -- leafNums (node d (eraseIdx)) ++ leafNums c ~ leafNums t
                  have hcs : cs ≠ [] := by
                    intro hnil
                    rw [hnil] at hci
                    simp at hci
                  have hperm4 : cs.Perm (c :: cs.eraseIdx i) :=
                    eraseIdx_perm cs i c hci
                  have herase_ne : cs.eraseIdx i ≠ [] := by
                    intro hnil
                    rcases hint with ⟨d2, cs2, hnode, hcs2⟩
                    cases hpc : p with
                    | nil =>
                      rw [hpc, hnil] at hnode
                      simp only [nodeAt] at hnode
                      injection hnode with hnode
                      injection hnode with _ h2
                      exact hcs2 h2.symm
                    | cons a rest =>
                      rw [hpc, hnil] at hnode
                      simp only [nodeAt] at hnode
                      simp at hnode
                  rw [leafNums_node_of_ne _ _ herase_ne,
                      leafNums_node_of_ne _ _ hcs]
                  have hperm5 : ((cs.map leafNums).flatten).Perm
                      (leafNums c ++ ((cs.eraseIdx i).map leafNums).flatten) := by
                    have := hperm4.map leafNums
                    have h6 := this.flatten
                    simpa using h6
                  apply List.Perm.symm
                  apply hperm5.trans
                  exact List.perm_append_comm

/-! ## PMCFG serializer: record ids -/

theorem pmcfgLins_funIds (f : Func) :
    ∀ (ls : List (Lin × List (Vert × Nat))) (fid : Nat)
      (tbl : List (LinBlock × Nat)) (next : Nat),
      ((pmcfgLins f fid tbl next ls).1.map fun r => r.funId) =
        List.range' fid ls.length ∧
      (pmcfgLins f fid tbl next ls).2.2.2 = fid + ls.length := by
  intro ls
  induction ls with
  | nil => intro fid tbl next; exact ⟨rfl, by simp [pmcfgLins]⟩
  | cons x rest ih =>
    intro fid tbl next
    obtain ⟨lin, vs⟩ := x
    have hr := ih (fid + 1) (assignLins tbl next lin).2.1
      (assignLins tbl next lin).2.2
    constructor
    · show fid :: ((pmcfgLins f (fid + 1) _ _ rest).1.map fun r => r.funId) =
        List.range' fid (rest.length + 1)
      rw [hr.1, List.range'_succ]
    · show (pmcfgLins f (fid + 1) _ _ rest).2.2.2 = fid + (rest.length + 1)
      rw [hr.2]
      omega

theorem pmcfgFuncs_funIds :
    ∀ (g : Grammar) (fid : Nat) (tbl : List (LinBlock × Nat)) (next : Nat),
      ((pmcfgFuncs fid tbl next g).1.map fun r => r.funId) =
        List.range' fid (pmcfgFuncs fid tbl next g).1.length ∧
      (pmcfgFuncs fid tbl next g).2.2.2 =
        fid + (pmcfgFuncs fid tbl next g).1.length := by
  intro g
  induction g with
  | nil => intro fid tbl next; exact ⟨rfl, by simp [pmcfgFuncs]⟩
  | cons fe rest ih =>
    intro fid tbl next
    obtain ⟨f, ls⟩ := fe
    have h1 := pmcfgLins_funIds f ls fid tbl next
    have hlen1 : (pmcfgLins f fid tbl next ls).1.length = ls.length := by
      have := congrArg List.length h1.1
      simpa using this
    have h2 := ih (pmcfgLins f fid tbl next ls).2.2.2
      (pmcfgLins f fid tbl next ls).2.1 (pmcfgLins f fid tbl next ls).2.2.1
    constructor
    · show ((pmcfgLins f fid tbl next ls).1 ++ _).map (fun r => r.funId) =
        List.range' fid ((pmcfgLins f fid tbl next ls).1 ++ _).length
      rw [List.map_append, List.length_append, h1.1, h2.1, hlen1, h1.2]
      have hra := List.range'_append fid ls.length
        (pmcfgFuncs (fid + ls.length) (pmcfgLins f fid tbl next ls).2.1
          (pmcfgLins f fid tbl next ls).2.2.1 rest).1.length 1
      simp only [Nat.one_mul] at hra
      rw [hra, Nat.add_comm ((pmcfgFuncs _ _ _ rest).1.length) ls.length]
    · show (pmcfgFuncs (pmcfgLins f fid tbl next ls).2.2.2 _ _ rest).2.2.2 =
        fid + ((pmcfgLins f fid tbl next ls).1 ++ _).length
      rw [h2.2, List.length_append, hlen1, h1.2]
      omega

theorem boyd_split_ok {t t2 : Tree} (h : boyd_split t = .ok t2) :
    boydRec t = .ok [t2] := by
  unfold boyd_split at h
  cases hb : boydRec t with
  | error e => rw [hb] at h; exact Except.noConfusion h
  | ok l =>
    rw [hb] at h
    cases l with
    | nil => simp at h
    | cons x rest =>
      cases rest with
      | nil =>
        simp only at h
        injection h with h
        rw [h]
      | cons y rest2 => simp at h

/-! ## The claims -/

/-- C1 (counterexample): extracting the spec §8 scenario — a flat
`S -> NP VP` with `NP` over terminal 1 and `VP` over terminals 2 and 3,
contiguous — does not produce the linearization `[[(0,0)],[(1,0)]]` the
claim states: the function `(S, NP, VP)` is recorded with the single
one-block linearization `[[(0,0),(1,0)]]`, so the claimed two-block
linearization is absent from the grammar. -/
theorem c1_counterexample :
    (linsOfFunc (extract tC1 []) ["S", "NP", "VP"]).map (fun x => x.1) =
      [[[(0, 0), (1, 0)]]] ∧
    ([[(0, 0)], [(1, 0)]], 1) ∉
      linsOfFunc (extract tC1 []) ["S", "NP", "VP"] :=
  ⟨rfl, by decide⟩

/-- C1 (amended): extracting a tree with a flat node `S` over children
`NP` (terminals `{1}`) and `VP` (terminals `{2,3}`) produces, for the
function `(S, NP, VP)`, the linearization `[[(0,0),(1,0)]]` — one block
with two argument references, since the yield of `S` is contiguous —
with count 1 after a single extraction into an empty grammar. -/
theorem c1_amended :
    linsOfFunc (extract tC1 []) ["S", "NP", "VP"] =
      [([[(0, 0), (1, 0)]], 1)] := rfl

/-- C2: for every tree whose terminals are exactly `1..k`, each of
`root_attach`, `negra_mark_heads`, `boyd_split` (when it succeeds) and
`raising` (applied to the `boyd_split` output, as the pipeline
prescribes) again yields terminals exactly `1..k` — the terminal
multiset and its ordering are preserved by every pass. -/
theorem c2_terminal_invariant (t : Tree) (k : Nat) (hv : valid t k) :
    valid (root_attach t) k ∧ valid (negra_mark_heads t) k ∧
      ∀ t2, boyd_split t = .ok t2 → valid t2 k ∧ valid (raising t2) k := by
  refine ⟨?_, ?_, ?_⟩
  · exact valid_of_perm (goRA_perm _ _ _ _ t) hv
  · apply valid_of_perm _ hv
    show (leafNums (markRec false t)).Perm (leafNums t)
    rw [leafNums_markRec t false]
  · intro t2 h2
    have hok := boyd_split_ok h2
    have hperm := boyd_perm t [t2] hok
    simp only [List.map_cons, List.map_nil, List.flatten_cons,
      List.flatten_nil, List.append_nil] at hperm
    have hv2 : valid t2 k := valid_of_perm hperm hv
    refine ⟨hv2, ?_⟩
    have hsafe : safeForRaise t2 := by
      intro n hn hleaf
      have hf := boyd_flags t [t2] hok t2 (by simp) n hn
      unfold removedB
      cases hsp : splitOf n with
      | none => rfl
      | some b =>
        cases b with
        | false => rfl
        | true => exact absurd hleaf (hf.2.2.2 hsp)
    exact valid_of_perm (raise_perm t2 hsafe).1 hv2

theorem c2_witness : valid tPipe 3 ∧ valid (root_attach tPipe) 3 ∧
    valid (negra_mark_heads tPipe) 3 ∧ valid tPipeSplit 3 ∧
    valid (raising tPipeSplit) 3 := by
  have h := c2_terminal_invariant tPipe 3 (by decide)
  exact ⟨by decide, h.1, h.2.1, (h.2.2 tPipeSplit rfl).1,
    (h.2.2 tPipeSplit rfl).2⟩

/-- C3: after Boyd splitting of a head-marked tree, every original node
that is split into more than one block node gets exactly one split node
with `head_block = true`, and a split node's `head_block` is true iff
some child in its block has `head = true` and is either not itself a
split node or has its own `head_block = true`. -/
theorem c3_head_block_unique (t s : Tree) (hm : HeadMarked t)
    (hs : s ∈ nodes t) (l : List Tree) (hl : boydRec s = .ok l)
    (hlen : 1 < l.length) :
    l.countP (fun p => hbOf p == some true) = 1 ∧
    ∀ p ∈ l, (hbOf p = some true ↔
      ∃ c ∈ childrenOf p, headOf c = some true ∧
        (splitOf c ≠ some true ∨ hbOf c = some true)) := by
  have hms : HeadMarked s := HeadMarked_mem hm hs
  rcases boyd_marked s hms with ⟨l2, hok2, _, _, hhb, hsplit⟩
  rw [hl] at hok2
  injection hok2 with hok2
  subst hok2
  refine ⟨hhb, ?_⟩
  intro p hp
  have hp2 := (hsplit hlen p hp).2
  rw [hp2]
  simp only [Option.some.injEq]
  rw [List.any_eq_true]
  constructor
  · rintro ⟨c, hc, hcov⟩
    unfold coversHead at hcov
    rw [Bool.and_eq_true] at hcov
    obtain ⟨h1, h2⟩ := hcov
    rw [Bool.or_eq_true] at h2
    refine ⟨c, hc, beq_iff_eq.mp h1, ?_⟩
    rcases h2 with h2 | h2
    · exact Or.inl (bne_iff_ne.mp h2)
    · exact Or.inr (beq_iff_eq.mp h2)
  · rintro ⟨c, hc, h1, h2⟩
    refine ⟨c, hc, ?_⟩
    unfold coversHead
    rw [Bool.and_eq_true]
    refine ⟨beq_iff_eq.mpr h1, ?_⟩
    rw [Bool.or_eq_true]
    rcases h2 with h2 | h2
    · exact Or.inl (bne_iff_ne.mpr h2)
    · exact Or.inr (beq_iff_eq.mpr h2)

theorem c3_witness : HeadMarked tPipe ∧ tA ∈ nodes tPipe ∧
    boydRec tA = .ok tASplit ∧ 1 < tASplit.length ∧
    tASplit.countP (fun p => hbOf p == some true) = 1 := by
  refine ⟨by decide, by decide, rfl, by decide, ?_⟩
  exact (c3_head_block_unique tPipe tA (by decide) (by decide) tASplit rfl
    (by decide)).1

/-- C4 (counterexample): when `boyd_split` splits `A` (terminals
`{1,3}`) below `P` whose other child is `B` (terminal `{2}`), the new
block nodes are appended after `B` at the end of `P`'s children list,
not placed at `A`'s original (first) position: the children list after
the split reads `B, A, A`, not `A, A, B`. -/
theorem c4_counterexample :
    (boydRec.boydList (childrenOf tBoyd)).map
      (fun rs => (combine rs).map labelOf) = .ok ["B", "A", "A"] ∧
    (["B", "A", "A"] : List String) ≠ ["A", "A", "B"] :=
  ⟨rfl, by decide⟩

/-- C4 (amended): when `boyd_split` splits children of a node, the new
block nodes are attached as children of the original node's parent, but
appended at the end of the parent's children list (after all children
that were replaced in place), in processing order — transform.py lines
148 and 160 remove the split node and `append` the block nodes. -/
theorem c4_amended_append (d : NodeData) (cs : List Tree)
    (rs : List (List Tree)) (h : boydRec.boydList cs = .ok rs)
    (hb : (blocksOf (combine rs)).length ≤ 1) :
    boydRec (.node d cs) =
      .ok [.node { d with split := some false, head_block := some true }
        ((rs.filter fun r => r.length == 1).flatten ++
          (rs.filter fun r => r.length != 1).flatten)] := by
  rw [boydRec_node_ok h, if_pos hb]
  rfl

theorem c4_witness :
    boydRec.boydList (childrenOf tPipe) = .ok rsPipe ∧
    (blocksOf (combine rsPipe)).length ≤ 1 ∧
    boydRec tPipe =
      .ok [.node { dataOf tPipe with split := some false, head_block := some true }
        ((rsPipe.filter fun r => r.length == 1).flatten ++
          (rsPipe.filter fun r => r.length != 1).flatten)] := by
  refine ⟨rfl, by decide, ?_⟩
  exact c4_amended_append (dataOf tPipe) (childrenOf tPipe) rsPipe rfl
    (by decide)

/-- C5 (counterexample): raising the tree whose root has the non-head
split node `R` (children `x`, `y`) as first child and the ordinary node
`s` as second child appends the promoted children at the end: the
result's children read `s, x, y`, not `x, y, s` as the claim's
"at the position the removed node occupied" would require. -/
theorem c5_counterexample :
    (childrenOf (raising tC5)).map labelOf = ["s", "x", "y"] ∧
    (childrenOf (raising tC5)).map labelOf ≠ ["x", "y", "s"] :=
  ⟨rfl, by decide⟩

/-- C5 (amended): for every node removed by `raising` (split and not a
head block), all of its children are re-attached to its former parent,
appended at the end of the parent's children list (after the surviving
siblings, which keep their relative order), the promoted children of
each removed node keeping their relative order — transform.py line 200
uses `parent.children.append`. -/
theorem c5_amended_append (d : NodeData) (cs : List Tree) :
    childrenOf (raiseRec (.node d cs)) =
      ((cs.map raiseRec).filter fun c => !removedB c) ++
        (((cs.map raiseRec).filter removedB).map childrenOf).flatten := by
  show raiseSplice (raiseRec.raiseList cs) = _
  rw [raiseList_eq_map]
  rfl

/-- C6: after `negra_mark_heads`, every internal node has exactly one
child with `head = true`, namely the leftmost child with edge `HD` if
any, else the rightmost child with edge `NK` if any, else the leftmost
child. -/
theorem c6_head_marking (t : Tree) :
    ∀ n ∈ nodes (negra_mark_heads t), childrenOf n ≠ [] →
    ∃ i, i < (childrenOf n).length ∧
      (∀ j, ∀ hj : j < (childrenOf n).length,
        (headOf ((childrenOf n).get ⟨j, hj⟩) = some true ↔ j = i)) ∧
      headChoice ((childrenOf n).map edgeOf) i := by
  intro n hn hne
  exact marked_nodes t false n hn hne

theorem c6_witness :
    (negra_mark_heads tC6 ∈ nodes (negra_mark_heads tC6)) ∧
    childrenOf (negra_mark_heads tC6) ≠ [] ∧
    ∃ i, i < (childrenOf (negra_mark_heads tC6)).length ∧
      (∀ j, ∀ hj : j < (childrenOf (negra_mark_heads tC6)).length,
        (headOf ((childrenOf (negra_mark_heads tC6)).get ⟨j, hj⟩) =
          some true ↔ j = i)) ∧
      headChoice ((childrenOf (negra_mark_heads tC6)).map edgeOf) i := by
  refine ⟨by decide, by decide, ?_⟩
  exact c6_head_marking tC6 _ (by decide) (by decide)

/-- C7: applying `boyd_split` to a tree without any head marking, such
that some node has more than one contiguous block of children (so a
split group would arise with no head block), aborts with the
`ValueError("heads not marked?")` precondition error instead of
continuing. -/
theorem c7_unmarked_error (t : Tree) (hu : unmarked t) (hd : discont t) :
    boyd_split t = .error "heads not marked?" := by
  rcases boyd_unmarked t hu with h | ⟨t2, hok, _, _, hall⟩
  · unfold boyd_split
    rw [h]
  · rcases hd with ⟨n, hn, hgt⟩
    have := hall n hn
    omega

theorem c7_witness : unmarked tUnmarked ∧ discont tUnmarked ∧
    boyd_split tUnmarked = .error "heads not marked?" :=
  ⟨by decide, by decide, c7_unmarked_error tUnmarked (by decide) (by decide)⟩

/-- C8 (counterexample): the PMCFG serializer increments `func_id` once
per (function, linearization) pair (grammar.py line 46 sits inside the
linearization loop), so two records for different linearizations of the
same function `S -> A B` carry the different ids 1 and 2, not the same
function id as claimed. -/
theorem c8_counterexample :
    ((pmcfg gC8).1.map fun r => (r.lhs, r.rhs, r.funId)) =
      [("S", ["A", "B"], 1), ("S", ["A", "B"], 2)] ∧ (1 : Nat) ≠ 2 :=
  ⟨rfl, by decide⟩

/-- C8 (amended): the PMCFG serializer assigns each emitted
(function, linearization) record a unique sequential 1-based id, in
emission order, while iterating functions then their linearizations;
records for different linearizations of the same function carry
different ids. -/
theorem c8_amended_sequential_ids (g : Grammar) :
    ((pmcfg g).1.map fun r => r.funId) =
      List.range' 1 (pmcfg g).1.length := by
  unfold pmcfg
  exact (pmcfgFuncs_funIds g 1 [] 1).1

/-- C9: during `root_attach`, a child whose attachment group's left
boundary lies before the sentence's first terminal or whose (possibly
extended) right boundary lies past the sentence's last terminal is
skipped: its processing step leaves the tree — in particular the root's
children list and the child's position in it — completely unchanged. -/
theorem c9_boundary_skip (tmin tmax fuel i : Nat) (d : NodeData)
    (cs : List Tree) (c : Tree) (hc : cs[i]? = some c)
    (hb : minNum c - 1 < tmin ∨
      tmax < extendR (maxNum c) (maxNum c + 1) (cs.drop (i + 1))) :
    goRA tmin tmax (fuel + 1) i (.node d cs) =
      goRA tmin tmax fuel (i + 1) (.node d cs) := by
  rw [goRA_succ, hc]
  simp only []
  rw [if_pos hb]

theorem c9_witness :
    (childrenOf tRA)[0]? =
      some (mkNode "A" none [mkLeaf "t1" 1 none, mkLeaf "t3" 3 none]) ∧
    (minNum (mkNode "A" none [mkLeaf "t1" 1 none, mkLeaf "t3" 3 none]) - 1
      < 1) ∧
    goRA 1 3 2 0 tRA = goRA 1 3 1 1 tRA := by
  refine ⟨rfl, by decide, ?_⟩
  exact c9_boundary_skip 1 3 1 0 (dataOf tRA) (childrenOf tRA)
    (mkNode "A" none [mkLeaf "t1" 1 none, mkLeaf "t3" 3 none]) rfl
    (Or.inl (by decide))

/-- C10: after a successful `boyd_split`, every node of the result
carries both a `split` and a `head_block` annotation, and every node not
introduced by splitting (`split = false`) has `head_block = true` — the
defaults are set for every node visited in postorder, terminals and the
root included. -/
theorem c10_split_flags (t t2 : Tree) (h : boyd_split t = .ok t2) :
    ∀ n ∈ nodes t2, ((splitOf n).isSome ∧ (hbOf n).isSome) ∧
      (splitOf n = some false → hbOf n = some true) := by
  intro n hn
  have hok := boyd_split_ok h
  have hf := boyd_flags t [t2] hok t2 (by simp) n hn
  exact ⟨⟨hf.1, hf.2.1⟩, hf.2.2.1⟩

theorem c10_witness :
    boyd_split tPipe = .ok tPipeSplit ∧
    ∀ n ∈ nodes tPipeSplit, ((splitOf n).isSome ∧ (hbOf n).isSome) ∧
      (splitOf n = some false → hbOf n = some true) :=
  ⟨rfl, c10_split_flags tPipe tPipeSplit rfl⟩

end Treetools
